import Mathlib

/-!
Verification of the telegram-preprocessor repository.

The JavaScript source (src/index.mjs and the TelegramProxy wrapper) is
shallowly embedded here.  A JS string is modelled as `List Char` (`JStr`);
every function of the source is translated into an executable Lean
definition operating on `JStr`.  Recursions that are not structural use an
explicit fuel argument (always instantiated with a provably sufficient
bound) so that all definitions reduce by `rfl`/`decide` on concrete inputs.
-/

set_option maxRecDepth 10000

/-- A JavaScript string, modelled as a list of characters. -/
abbrev JStr := List Char

/-- The backtick character (used by the inline-code regex of the source). -/
def btick : Char := ("`").toList.headD ' '

/-- JavaScript whitespace (the class `\s`, also the set removed by
`trim`/`trimEnd`). -/
def isJsWs (c : Char) : Bool :=
  c == ' ' || c == '\t' || c == '\n' || c == '\r' || c == '\x0b' || c == '\x0c' ||
  c.toNat == 0xA0 || c.toNat == 0x1680 || (0x2000 ≤ c.toNat && c.toNat ≤ 0x200A) ||
  c.toNat == 0x2028 || c.toNat == 0x2029 || c.toNat == 0x202F || c.toNat == 0x205F ||
  c.toNat == 0x3000 || c.toNat == 0xFEFF

/-- JavaScript word character (the class `\w`, that is `[A-Za-z0-9_]`). -/
def isWordChar (c : Char) : Bool :=
  ('a' ≤ c && c ≤ 'z') || ('A' ≤ c && c ≤ 'Z') || ('0' ≤ c && c ≤ '9') || c == '_'

/-- ASCII decimal digit (the class `\d`). -/
def isDigitCh (c : Char) : Bool := '0' ≤ c && c ≤ '9'

/-- ASCII hexadecimal digit (the class `[\da-fA-F]`). -/
def isHexCh (c : Char) : Bool :=
  isDigitCh c || ('a' ≤ c && c ≤ 'f') || ('A' ≤ c && c ≤ 'F')

/-- Model of `s.trimEnd()`: remove trailing JS whitespace. -/
def jsTrimEnd (l : JStr) : JStr := (l.reverse.dropWhile isJsWs).reverse

/-- Model of `s.trim()`: remove leading and trailing JS whitespace. -/
def jsTrim (l : JStr) : JStr := (jsTrimEnd l).dropWhile isJsWs

/-- Model of `s.split(c)` for a single separator character. -/
def splitCh (c : Char) : JStr → List JStr
  | [] => [[]]
  | x :: xs =>
    let r := splitCh c xs
    if x = c then [] :: r
    else
      match r with
      | [] => [[x]]
      | h :: t => (x :: h) :: t

/-- Model of `s.slice(a, b)` for natural indices (JS clamps out-of-range
values). -/
def jsSlice (s : JStr) (a b : Nat) : JStr := (s.drop a).take (b - a)

/-- Model of `parts.join(sep)`. -/
def joinSep (sep : JStr) : List JStr → JStr
  | [] => []
  | [p] => p
  | p :: q :: rest => p ++ sep ++ joinSep sep (q :: rest)

/-- Fueled worker for `replaceAll`: replace every (leftmost, non-overlapping)
occurrence of `pat` by `rep`. -/
def replAllGo (pat rep : JStr) : Nat → JStr → JStr
  | 0, s => s
  | _ + 1, [] => []
  | f + 1, c :: cs =>
    if pat.isPrefixOf (c :: cs) then rep ++ replAllGo pat rep f ((c :: cs).drop pat.length)
    else c :: replAllGo pat rep f cs

/-- Model of `s.split(pat).join(rep)`: replace every occurrence of `pat` by
`rep`. -/
def replaceAll (pat rep s : JStr) : JStr :=
  if pat = [] then s else replAllGo pat rep s.length s

/-- Fueled worker for `replaceFirst`. -/
def replFirstGo (pat rep : JStr) : Nat → JStr → JStr
  | 0, s => s
  | _ + 1, [] => []
  | f + 1, c :: cs =>
    if pat.isPrefixOf (c :: cs) then rep ++ (c :: cs).drop pat.length
    else c :: replFirstGo pat rep f cs

/-- Model of `s.replace(pat, rep)` for a string pattern: replace the first
occurrence only. -/
def replaceFirst (pat rep s : JStr) : JStr :=
  if pat = [] then s else replFirstGo pat rep s.length s

/-- Model of `s.lastIndexOf(sub)`, returning `-1` when absent (as in JS). -/
def lastIndexOfSub (sub s : JStr) : Int :=
  match ((List.range (s.length + 1)).filter (fun i => sub.isPrefixOf (s.drop i))).getLast? with
  | some i => (i : Int)
  | none => -1

/-- Centralized HTML escaping of the source: three sequential global
replacements, first `&`, then `<`, then `>`. -/
def escapeHtml (t : JStr) : JStr :=
  replaceAll ((">").toList) (("&gt;").toList)
    (replaceAll (("<").toList) (("&lt;").toList)
      (replaceAll (("&").toList) (("&amp;").toList) t))

/-- One extracted fenced block: language tag, body, and fence delimiter. -/
structure FenceBlock where
  lang : JStr
  body : JStr
  fenceType : JStr
deriving Repr, DecidableEq

/-- A full regex match of the fence pattern: the whole matched text plus the
three capture groups. -/
structure FMatch where
  whole : JStr
  lang : JStr
  body : JStr
  fenceType : JStr
deriving Repr, DecidableEq

/-- Fence placeholder: the sentinel, the word FENCE, the decimal index, the
sentinel. -/
def fencePh (i : Nat) : JStr :=
  '\x00' :: (("FENCE").toList ++ (Nat.repr i).toList ++ ['\x00'])

/-- Position (exclusive end) where the trailing whitespace-then-end-of-line
part of the fence regex ends, given the run `w` of whitespace following the
closing fence at offset `q`: with the `m` flag the anchor matches at end of
input or before a newline, and the greedy quantifier picks the largest such
position.  Returns `none` when no position in `[q, q+|w|]` qualifies. -/
def fenceTailEnd (slen q : Nat) (w : JStr) : Option Nat :=
  if q + w.length = slen then some slen
  else
    match w.reverse.findIdx? (fun c => c == '\n') with
    | some j => some (q + (w.length - 1 - j))
    | none => none

/-- Fueled search for the lazy body of a fence match: the smallest `j`
at or beyond the body start such that the closing fence `f` occurs at `j` and
the match tail succeeds after it.  Returns `(j, matchEnd)`. -/
def fenceCloseGo (s : JStr) (f : JStr) : Nat → Nat → Option (Nat × Nat)
  | 0, _ => none
  | fuel + 1, j =>
    if j + f.length ≤ s.length ∧ f.isPrefixOf (s.drop j) then
      let q := j + f.length
      let w := (s.drop q).takeWhile isJsWs
      match fenceTailEnd s.length q w with
      | some e => some (j, e)
      | none => fenceCloseGo s f fuel (j + 1)
    else if j + f.length ≤ s.length then fenceCloseGo s f fuel (j + 1)
    else none

/-- Attempt a match of the fence regex at position `i` of `s`; returns the
match record and the match end (the regex lastIndex). -/
def fenceMatchAt (s : JStr) (i : Nat) : Option (FMatch × Nat) :=
  let t := s.drop i
  let f : Option JStr :=
    if (("```").toList).isPrefixOf t then some (("```").toList)
    else if (("~~~").toList).isPrefixOf t then some (("~~~").toList)
    else none
  match f with
  | none => none
  | some fen =>
    let lang := (t.drop 3).takeWhile isWordChar
    if (t.drop (3 + lang.length)).head? = some '\n' then
      let b0 := i + 3 + lang.length + 1
      match fenceCloseGo s fen (s.length + 1) b0 with
      | some (j, e) =>
        some (⟨jsSlice s i e, lang, jsSlice s b0 j, fen⟩, e)
      | none => none
    else none

/-- Fueled global exec loop of the fence regex: leftmost matches, scanning
resuming at each match's end. -/
def fenceExecGo (s : JStr) : Nat → Nat → List FMatch
  | 0, _ => []
  | fuel + 1, pos =>
    if pos ≤ s.length then
      match fenceMatchAt s pos with
      | some (m, e) => m :: fenceExecGo s fuel e
      | none => fenceExecGo s fuel (pos + 1)
    else []

/-- All matches of the fence regex over `s`. -/
def fenceExecAll (s : JStr) : List FMatch := fenceExecGo s (s.length + 2) 0

/-- Model of `extractFencedBlocks` of the source: collect all fence matches,
then replace each matched text (first occurrence, in order) by its
placeholder. -/
def extractFencedBlocks (text : JStr) : JStr × List FenceBlock :=
  let ms := fenceExecAll text
  let out := ms.enum.foldl (fun acc im => replaceFirst im.2.whole (fencePh im.1) acc) text
  (out, ms.map (fun m => ⟨m.lang, m.body, m.fenceType⟩))

/-- The replacement text used by `restoreFencedBlocks` for one block. -/
def fenceReplacement (b : FenceBlock) (toHtml : Bool) : JStr :=
  let langPad : JStr := if b.lang = [] then [] else ' ' :: b.lang
  if toHtml then
    (("<pre><code").toList) ++ langPad ++ ((">").toList) ++ escapeHtml b.body ++
      (("</code></pre>").toList)
  else
    b.fenceType ++ langPad ++ '\n' :: (b.body ++ '\n' :: (b.fenceType ++ ['\n']))

/-- Model of `restoreFencedBlocks` of the source: replace every occurrence of
each placeholder (ascending index) by the corresponding replacement. -/
def restoreFencedBlocks (text : JStr) (blocks : List FenceBlock) (toHtml : Bool) : JStr :=
  blocks.enum.foldl (fun acc ib => replaceAll (fencePh ib.1) (fenceReplacement ib.2 toHtml) acc) text

/-- Character class of the table-separator regex: whitespace, hyphen, colon. -/
def isSepCl (c : Char) : Bool := isJsWs c || c == '-' || c == ':'

/-- Fueled matcher for the tail of the separator regex, entered after at
least one pipe-group has been consumed: at each pipe either the final pipe is
taken (the rest must be all whitespace) or another non-empty group follows. -/
def sepAfterGroup : Nat → JStr → Bool
  | 0, _ => false
  | fuel + 1, l =>
    match l with
    | [] => false
    | c :: rest =>
      if c = '|' then
        rest.all isJsWs ||
          (!(rest.takeWhile isSepCl).isEmpty && sepAfterGroup fuel (rest.dropWhile isSepCl))
      else false

/-- Model of TABLE_SEPARATOR_RE (one or more pipe-delimited groups of
whitespace/hyphen/colon, a final pipe, optional trailing whitespace). -/
def sepMatch (l : JStr) : Bool :=
  match l with
  | [] => false
  | c :: rest =>
    if c = '|' then
      !(rest.takeWhile isSepCl).isEmpty && sepAfterGroup (l.length + 1) (rest.dropWhile isSepCl)
    else false

/-- Worker for the findIndex call: first index at or beyond `i` whose line
matches the separator pattern. -/
def findSepIdxGo (i : Nat) : List JStr → Option Nat
  | [] => none
  | l :: rest => if sepMatch l then some i else findSepIdxGo (i + 1) rest

/-- Model of the findIndex call locating the separator line (predicate is
false at index 0); `none` models `-1`. -/
def findSepIdx (lines : List JStr) : Option Nat :=
  match lines with
  | [] => none
  | _ :: rest => findSepIdxGo 1 rest

/-- Model of `parseRow` of the source: trim, strip one leading and one
trailing pipe, split on the pipe character, trim each cell. -/
def parseRow (line : JStr) : List JStr :=
  let t := jsTrim line
  let t1 := if t.head? = some '|' then t.tail else t
  let t2 := if t1.getLast? = some '|' then t1.dropLast else t1
  (splitCh '|' t2).map jsTrim

/-- One bullet line of `tableToBullets`: header-labelled when the cell count
matches, plain otherwise; empty cells display as an em-dash. -/
def bulletOf (headers : List JStr) (row : JStr) : JStr :=
  let cells := parseRow row
  let display := cells.map (fun c => if c = [] then ("—").toList else c)
  if headers.length = display.length then
    (("• ").toList) ++
      (joinSep ((" · ").toList)
        (List.zipWith (fun h c => h ++ ((": ").toList) ++ c) headers display))
  else
    (("• ").toList) ++ (joinSep ((" · ").toList) display)

/-- Model of `tableToBullets` of the source (the findIndex result is `none`
for `-1`, so the `sepIdx < 1` rejection is the `none` branch). -/
def tableToBullets (block : JStr) : JStr :=
  let lines := (splitCh '\n' block).map jsTrim
  if lines.length < 3 then block
  else
    let first := lines.headD []
    if !(first.contains '|') then block
    else
      (findSepIdx lines).elim block (fun sepIdx =>
        let dataLines := (lines.drop (sepIdx + 1)).filter (fun l => l.contains '|')
        if dataLines.length = 0 then block
        else
          let headers := parseRow first
          joinSep ['\n'] (dataLines.map (bulletOf headers)))

/-- Model of `processBlock` of the source: the strict per-paragraph table
gate. -/
def processBlock (block : JStr) : JStr :=
  let trimmed := jsTrim block
  if trimmed = [] then []
  else
    let lines := splitCh '\n' trimmed
    if lines.length < 3 then trimmed
    else
      let first := lines.headD []
      if !(first.contains '|') then trimmed
      else if findSepIdx lines ≠ some 1 then trimmed
      else
        let dataLines := (lines.drop 2).filter (fun l => l.contains '|')
        if dataLines.length = 0 then trimmed
        else tableToBullets trimmed

/-- Fueled scanner for the newline-run collapse: every maximal run of three
or more newlines becomes exactly two. -/
def collapseNLGo : Nat → JStr → JStr
  | 0, s => s
  | _ + 1, [] => []
  | fuel + 1, c :: cs =>
    if c = '\n' ∧ cs.head? = some '\n' ∧ cs.tail.head? = some '\n' then
      '\n' :: '\n' :: collapseNLGo fuel (cs.tail.tail.dropWhile (fun x => x == '\n'))
    else c :: collapseNLGo fuel cs

/-- Model of the global replacement collapsing runs of three or more
newlines to two. -/
def collapseNL (s : JStr) : JStr := collapseNLGo s.length s

/-- Model of `normalizeWhitespace` of the source: unify CRLF then CR to a
newline, collapse newline runs, right-trim each line, trim the whole text. -/
def normalizeWhitespace (text : JStr) : JStr :=
  let s1 := replaceAll (("\r\n").toList) (("\n").toList) text
  let s2 := replaceAll (("\r").toList) (("\n").toList) s1
  let s3 := collapseNL s2
  jsTrim (joinSep ['\n'] ((splitCh '\n' s3).map jsTrimEnd))

/-- Remainder after a blank-line separator (newline, optional whitespace,
newline) matched at the head of `s` (`none` when no separator matches at the
head).  The greedy quantifier makes the separator end at the last newline of
the whitespace run following the first newline. -/
def blankSepAt (s : JStr) : Option JStr :=
  match s with
  | '\n' :: t =>
    let w := t.takeWhile isJsWs
    match w.reverse.findIdx? (fun c => c == '\n') with
    | some j => some (t.drop (w.length - j))
    | none => none
  | _ => none

/-- Fueled worker for the blank-line paragraph split. -/
def splitBlankGo : Nat → JStr → List JStr
  | 0, s => [s]
  | _ + 1, [] => [[]]
  | fuel + 1, c :: rest =>
    match blankSepAt (c :: rest) with
    | some r => [] :: splitBlankGo fuel r
    | none =>
      match splitBlankGo fuel rest with
      | [] => [[c]]
      | h :: t => (c :: h) :: t

/-- Model of the paragraph split on blank lines. -/
def splitBlank (s : JStr) : List JStr := splitBlankGo (s.length + 1) s

/-- Model of `convertTablesToBullets` of the source. -/
def convertTablesToBullets (text : JStr) : JStr :=
  let normalized := normalizeWhitespace text
  let blocks := splitBlank normalized
  joinSep (("\n\n").toList) ((blocks.map processBlock).filter (fun c => !c.isEmpty))

/-- Match of the entity regex (ampersand, then a numeric, hexadecimal or
named reference, then a semicolon) at position `i`; returns the match
length. -/
def entityMatchAt (s : JStr) (i : Nat) : Option Nat :=
  match s.drop i with
  | '&' :: u =>
    match u with
    | '#' :: u2 =>
      let d := u2.takeWhile isDigitCh
      if d ≠ [] ∧ (u2.drop d.length).head? = some ';' then some (d.length + 3)
      else
        match u2 with
        | 'x' :: u3 =>
          let h := u3.takeWhile isHexCh
          if h ≠ [] ∧ (u3.drop h.length).head? = some ';' then some (h.length + 4)
          else none
        | _ => none
    | _ =>
      let w := u.takeWhile isWordChar
      if w ≠ [] ∧ (u.drop w.length).head? = some ';' then some (w.length + 2)
      else none
  | _ => none

/-- Match of the tag regex (angle bracket, one or more non-closing
characters, closing angle bracket) at position `i`. -/
def tagMatchAt (s : JStr) (i : Nat) : Option Nat :=
  match s.drop i with
  | '<' :: u =>
    let r := u.takeWhile (fun c => !(c == '>'))
    if r ≠ [] ∧ (u.drop r.length).head? = some '>' then some (r.length + 2)
    else none
  | _ => none

/-- Fueled search for the lazy closing part of the pre-element regex. -/
def preCloseGo (s : JStr) : Nat → Nat → Option Nat
  | 0, _ => none
  | fuel + 1, j =>
    if j ≤ s.length then
      if (("</pre>").toList).isPrefixOf (s.drop j) then some (j + 6)
      else preCloseGo s fuel (j + 1)
    else none

/-- Match of the pre-element regex at position `i`. -/
def preMatchAt (s : JStr) (i : Nat) : Option Nat :=
  if (("<pre").toList).isPrefixOf (s.drop i) then
    match (s.drop (i + 4)).head? with
    | some c =>
      if isJsWs c || c == '>' then
        match preCloseGo s (s.length + 1) (i + 5) with
        | some e => some (e - i)
        | none => none
      else none
    | none => none
  else none

/-- Fueled global scan collecting all `(index, length)` matches of a
matcher. -/
def scanMatchesGo (matchAt : JStr → Nat → Option Nat) (s : JStr) : Nat → Nat → List (Nat × Nat)
  | 0, _ => []
  | fuel + 1, pos =>
    if pos ≤ s.length then
      match matchAt s pos with
      | some len => (pos, len) :: scanMatchesGo matchAt s fuel (pos + len)
      | none => scanMatchesGo matchAt s fuel (pos + 1)
    else []

/-- All matches of a matcher over `s` (the exec loop with the global flag). -/
def scanMatches (matchAt : JStr → Nat → Option Nat) (s : JStr) : List (Nat × Nat) :=
  scanMatchesGo matchAt s (s.length + 2) 0

/-- The best-breakpoint update loop of `nextSafeBreak`: for each match, if
its end exceeds `start + maxLen` and is below the current best, move the best
to that end. -/
def foldBest (start maxLen : Nat) (ms : List (Nat × Nat)) (b0 : Nat) : Nat :=
  ms.foldl (fun b m =>
    let e := start + m.1 + m.2
    if e > start + maxLen ∧ e < b then e else b) b0

/-- Model of `nextSafeBreak` of the source.  The value `best` is computed
exactly as in the source (entity scan, then tag scan, then pre scan) and —
exactly as in the source — does not influence the returned breakpoint. -/
def nextSafeBreak (text : JStr) (start maxLen : Nat) : Nat :=
  let slice := jsSlice text start (start + maxLen)
  let len := slice.length
  if len < maxLen then start + len
  else
    let segment := jsSlice text start (start + maxLen + 200)
    let best := foldBest start maxLen (scanMatches preMatchAt segment)
      (foldBest start maxLen (scanMatches tagMatchAt segment)
        (foldBest start maxLen (scanMatches entityMatchAt segment) (start + maxLen)))
    let lastPara := lastIndexOfSub (("\n\n").toList) slice
    let lastLine := lastIndexOfSub (("\n").toList) slice
    let breakAt : Int :=
      if 2 * lastPara > (maxLen : Int) then lastPara + 1
      else if 2 * lastLine > (maxLen : Int) then lastLine + 1
      else (maxLen : Int)
    let _ := best
    start + breakAt.toNat

/-- Skip the run of newline/space characters following a breakpoint (the
inner while-loop of `splitChunksSafe`). -/
def skipWs (text : JStr) (start : Nat) : Nat :=
  start + ((text.drop start).takeWhile (fun c => c == '\n' || c == ' ')).length

/-- Fueled main loop of `splitChunksSafe`; `none` means the fuel ran out
(the JS loop would not have terminated within the fuel bound). -/
def splitGo (text : JStr) (maxLen : Nat) : Nat → Nat → Option (List JStr)
  | 0, _ => none
  | fuel + 1, start =>
    if start < text.length then
      let breakAt := nextSafeBreak text start maxLen
      let chunk := jsTrim (jsSlice text start breakAt)
      (splitGo text maxLen fuel (skipWs text breakAt)).map (chunk :: ·)
    else some []

/-- Model of `splitChunksSafe` of the source.  Short input is returned whole
(untrimmed); otherwise the loop collects trimmed slices and empty chunks are
filtered out. -/
def splitChunksSafe (text : JStr) (maxLen : Nat) : List JStr :=
  if text.length ≤ maxLen then [text]
  else ((splitGo text maxLen (text.length + 1) 0).getD []).filter (fun c => !c.isEmpty)

/-- Per-line transform of the heading-demotion replacement (two hashes, one
or more whitespace characters, the rest of the line becomes bold). -/
def headingLine (line : JStr) : JStr :=
  if (("##").toList).isPrefixOf line then
    let rest := line.drop 2
    let w := rest.takeWhile isJsWs
    let r := rest.drop w.length
    if w = [] then line
    else if r ≠ [] then (("<b>").toList) ++ r ++ (("</b>").toList)
    else
      match w.reverse with
      | lc :: _ :: _ => (("<b>").toList) ++ [lc] ++ (("</b>").toList)
      | _ => line
  else line

/-- Fueled scanner for the double-asterisk bold replacement (span of one to
eighty characters containing neither asterisk nor newline). -/
def boldGo : Nat → JStr → JStr
  | 0, s => s
  | _ + 1, [] => []
  | fuel + 1, c :: cs =>
    if c = '*' then
      match cs with
      | '*' :: rest =>
        let run := rest.takeWhile (fun x => !(x == '*') && !(x == '\n'))
        if 1 ≤ run.length ∧ run.length ≤ 80 ∧ (("**").toList).isPrefixOf (rest.drop run.length) then
          (("<b>").toList) ++ run ++ (("</b>").toList) ++ boldGo fuel (rest.drop (run.length + 2))
        else '*' :: boldGo fuel cs
      | _ => c :: boldGo fuel cs
    else c :: boldGo fuel cs

/-- Lookaround helper: true when the optional character is absent or not a
word character. -/
def notWordOpt : Option Char → Bool
  | some p => !isWordChar p
  | none => true

/-- Fueled scanner for the inline-code regex with its lookarounds: a
backtick not preceded by a word character, a non-empty backtick-free span, a
closing backtick not followed by a word character. -/
def codeGo : Nat → Option Char → JStr → JStr
  | 0, _, s => s
  | _ + 1, _, [] => []
  | fuel + 1, prev, c :: cs =>
    if c == btick && notWordOpt prev then
      let run := cs.takeWhile (fun x => !(x == btick))
      if 1 ≤ run.length ∧ (cs.drop run.length).head? = some btick ∧
          notWordOpt (cs.drop (run.length + 1)).head? = true then
        (("<code>").toList) ++ run ++ (("</code>").toList) ++
          codeGo fuel (some btick) (cs.drop (run.length + 1))
      else c :: codeGo fuel (some c) cs
    else c :: codeGo fuel (some c) cs

/-- Model of `markdownToTelegramHtmlConservative` of the source: escape
HTML, demote headings to bold, convert double-asterisk bold, convert
backtick inline code. -/
def markdownToTelegramHtmlConservative (text : JStr) : JStr :=
  let o1 := escapeHtml text
  let o2 := joinSep ['\n'] ((splitCh '\n' o1).map headingLine)
  let o3 := boldGo o2.length o2
  codeGo o3.length none o3

/-- The text argument of `preprocess`: a string, or any non-string value. -/
inductive JVal where
  | str : JStr → JVal
  | nonstr : JVal
deriving Repr, DecidableEq

/-- The options object of `preprocess`. -/
structure PreOptions where
  style : Option JStr
  toHtml : Bool
  maxChunkLength : Nat
  split : Bool
deriving Repr, DecidableEq

/-- Default options (the empty options object). -/
def PreOptions.default : PreOptions := ⟨none, false, 4096, true⟩

/-- The result of `preprocess`. -/
structure PreResult where
  chunks : List JStr
  parseMode : Option JStr
deriving Repr, DecidableEq

/-- Per-chunk HTML pass of the pipeline: re-extract fences from the chunk,
transform the guarded text, restore fences as pre/code elements. -/
def htmlChunk (chunk : JStr) : JStr :=
  let e := extractFencedBlocks chunk
  restoreFencedBlocks (markdownToTelegramHtmlConservative e.1) e.2 true

/-- Model of `preprocess` of the source (the main pipeline). -/
def preprocess (text : JVal) (o : PreOptions) : PreResult :=
  let style := o.style.getD (if o.toHtml then ("telegramHtml").toList else ("telegramPlain").toList)
  let toHtml : Bool := style == ("telegramHtml").toList
  match text with
  | .nonstr => ⟨[[]], none⟩
  | .str t =>
    let e := extractFencedBlocks t
    let content := restoreFencedBlocks (convertTablesToBullets e.1) e.2 false
    let chunks := if o.split then splitChunksSafe content o.maxChunkLength else [content]
    let finalChunks := if toHtml then chunks.map htmlChunk else chunks
    ⟨finalChunks, if toHtml then some (("HTML").toList) else none⟩

/-- Telegram send options: the render-mode field plus all other fields
(modelled as an opaque association list, passed through untouched). -/
structure SendOptions where
  parse_mode : Option JStr
  rest : List (JStr × JStr)
deriving Repr, DecidableEq

/-- The merged proxy options (constructor defaults merged with the
caller's). -/
structure ProxyOptions where
  style : JStr
  maxChunkLength : Nat
  split : Bool
  chunkDelayMs : Nat
  enabled : Bool
deriving Repr, DecidableEq

/-- Default proxy options. -/
def ProxyOptions.default : ProxyOptions := ⟨("telegramPlain").toList, 4096, true, 300, true⟩

/-- JS truthiness of an optional string (absent, null and the empty string
are falsy). -/
def optTruthy : Option JStr → Bool
  | none => false
  | some s => !s.isEmpty

/-- The baseOptions construction of the proxy sendMessage: spread the
caller's options, then inject the render mode when the preprocessor produced
one and the caller's is falsy. -/
def mergedOptions (pm : Option JStr) (options : SendOptions) : SendOptions :=
  if optTruthy pm && !optTruthy options.parse_mode then ⟨pm, options.rest⟩ else options

/-- The sequence of underlying client sendMessage calls issued by the proxy
sendMessage (chat id, text, options per call). -/
def proxySendCalls (po : ProxyOptions) (chatId : Nat) (text : JVal) (options : SendOptions) :
    List (Nat × JVal × SendOptions) :=
  match text with
  | .nonstr => [(chatId, text, options)]
  | .str s =>
    if !po.enabled || (jsTrim s).isEmpty then [(chatId, text, options)]
    else
      let r := preprocess (.str s) ⟨some po.style, false, po.maxChunkLength, po.split⟩
      let base := mergedOptions r.parseMode options
      r.chunks.map (fun c => (chatId, JVal.str c, base))

/-- Greedy rebuild check for the chunk-concatenation property: the text must
be the chunks in order, interleaved with (and surrounded by) whitespace-only
gaps. -/
def chunksRebuild : JStr → List JStr → Bool
  | s, [] => (s.dropWhile isJsWs).isEmpty
  | s, c :: cs =>
    let s' := s.dropWhile isJsWs
    c.isPrefixOf s' && chunksRebuild (s'.drop c.length) cs

/-- Proof-side characterization of the CRLF replacement as a single scanner. -/
def crlf2lf : JStr → JStr
  | [] => []
  | [c] => [c]
  | c :: d :: rest =>
    if c = '\r' ∧ d = '\n' then '\n' :: crlf2lf rest
    else c :: crlf2lf (d :: rest)

/-- Proof-side characterization of the CR replacement as a single scanner. -/
def cr2lf : JStr → JStr
  | [] => []
  | c :: rest => (if c = '\r' then '\n' else c) :: cr2lf rest

/-- Modelled from the spec: unify line endings to a single newline (CRLF
first, then lone CR), as one pass. -/
def specUnifyEol : JStr → JStr
  | [] => []
  | [c] => if c = '\r' then ['\n'] else [c]
  | c :: d :: rest =>
    if c = '\r' then
      (if d = '\n' then '\n' :: specUnifyEol rest else '\n' :: specUnifyEol (d :: rest))
    else c :: specUnifyEol (d :: rest)

/-- Fueled run-based newline collapse: each maximal run of `k` newlines
becomes two newlines when `k ≥ 3`, and is kept otherwise. -/
def nlRunGo : Nat → JStr → JStr
  | 0, s => s
  | _ + 1, [] => []
  | fuel + 1, c :: rest =>
    if c = '\n' then
      (if 3 ≤ 1 + (rest.takeWhile (fun x => x == '\n')).length then List.replicate 2 '\n'
       else List.replicate (1 + (rest.takeWhile (fun x => x == '\n')).length) '\n') ++
        nlRunGo fuel (rest.dropWhile (fun x => x == '\n'))
    else c :: nlRunGo fuel rest

/-- Modelled from the spec (amended): collapse every maximal run of three or
more consecutive newline characters to exactly two newlines. -/
def nlRunCollapse (s : JStr) : JStr := nlRunGo s.length s

/-- Fueled literal reading of the claim's collapse rule: three or more
consecutive blank lines (that is, four or more consecutive newlines) become
one blank line (two newlines); runs of three newlines are left alone. -/
def litRunGo : Nat → JStr → JStr
  | 0, s => s
  | _ + 1, [] => []
  | fuel + 1, c :: rest =>
    if c = '\n' then
      (if 4 ≤ 1 + (rest.takeWhile (fun x => x == '\n')).length then List.replicate 2 '\n'
       else List.replicate (1 + (rest.takeWhile (fun x => x == '\n')).length) '\n') ++
        litRunGo fuel (rest.dropWhile (fun x => x == '\n'))
    else c :: litRunGo fuel rest

/-- Modelled from the spec, literal reading of claim C5's collapse step. -/
def litRunCollapse (s : JStr) : JStr := litRunGo s.length s

/-- Modelled from the spec (amended reading): the claimed normalization
pipeline — unify line endings, collapse newline runs of three or more to
two, right-trim every line, trim the whole text. -/
def specNormalizeAmended (t : JStr) : JStr :=
  jsTrim (joinSep ['\n'] ((splitCh '\n' (nlRunCollapse (specUnifyEol t))).map jsTrimEnd))

/-- Modelled from the spec, literal reading: the claimed normalization
pipeline with the collapse step reading "3+ consecutive blank lines become
one blank line" literally (only runs of four or more newlines collapse). -/
def specNormalizeLiteral (t : JStr) : JStr :=
  jsTrim (joinSep ['\n'] ((splitCh '\n' (litRunCollapse (specUnifyEol t))).map jsTrimEnd))

/-! ### Generic list and whitespace lemmas -/

theorem dropWhile_head_false {α} {p : α → Bool} :
    ∀ {l : List α} {c t}, l.dropWhile p = c :: t → p c = false := by
  intro l
  induction l with
  | nil => intro c t h; simp [List.dropWhile] at h
  | cons x xs ih =>
    intro c t h
    rw [List.dropWhile_cons] at h
    by_cases hx : p x
    · simp [hx] at h; exact ih h
    · simp [hx] at h; obtain ⟨h1, _⟩ := h; subst h1; simpa using hx

theorem dropWhile_append_of_all {α} {p : α → Bool} {a : List α}
    (ha : ∀ x ∈ a, p x = true) (b : List α) :
    (a ++ b).dropWhile p = b.dropWhile p := by
  induction a with
  | nil => simp
  | cons x xs ih =>
    have hx : p x = true := ha x (by simp)
    simp only [List.cons_append, List.dropWhile_cons, hx, if_true]
    exact ih (fun y hy => ha y (by simp [hy]))

theorem dropWhile_append_of_ne_nil {α} {p : α → Bool} {a : List α}
    (ha : a.dropWhile p ≠ []) (b : List α) :
    (a ++ b).dropWhile p = a.dropWhile p ++ b := by
  rw [List.dropWhile_append]
  rcases h : a.dropWhile p with _ | ⟨c, t⟩
  · exact absurd h ha
  · simp [h]

theorem dropWhile_cons_of_false {α} {p : α → Bool} {c : α} (hc : p c = false) (l : List α) :
    (c :: l).dropWhile p = c :: l := by
  rw [List.dropWhile_cons, hc]; simp

theorem drop_length_takeWhile {α} (p : α → Bool) (l : List α) :
    l.drop (l.takeWhile p).length = l.dropWhile p := by
  induction l with
  | nil => simp
  | cons x xs ih =>
    by_cases hx : p x
    · simp [List.takeWhile_cons, List.dropWhile_cons, hx, ih]
    · simp [List.takeWhile_cons, List.dropWhile_cons, hx]

theorem jsTrimEnd_decomp (l : JStr) :
    ∃ v, l = jsTrimEnd l ++ v ∧ ∀ c ∈ v, isJsWs c = true := by
  refine ⟨(l.reverse.takeWhile isJsWs).reverse, ?_, ?_⟩
  · have h : jsTrimEnd l ++ (l.reverse.takeWhile isJsWs).reverse = l := by
      unfold jsTrimEnd
      rw [← List.reverse_append, List.takeWhile_append_dropWhile, List.reverse_reverse]
    exact h.symm
  · intro c hc
    rw [List.mem_reverse] at hc
    exact List.mem_takeWhile_imp hc

theorem jsTrim_decomp (l : JStr) :
    ∃ u v, l = u ++ jsTrim l ++ v ∧ (∀ c ∈ u, isJsWs c = true) ∧ (∀ c ∈ v, isJsWs c = true) := by
  obtain ⟨v, hv, hvws⟩ := jsTrimEnd_decomp l
  refine ⟨(jsTrimEnd l).takeWhile isJsWs, v, ?_, ?_, hvws⟩
  · have h : (jsTrimEnd l).takeWhile isJsWs ++ jsTrim l ++ v = l := by
      show (jsTrimEnd l).takeWhile isJsWs ++ (jsTrimEnd l).dropWhile isJsWs ++ v = l
      rw [List.takeWhile_append_dropWhile]
      exact hv.symm
    exact h.symm
  · intro c hc; exact List.mem_takeWhile_imp hc

theorem jsTrim_head_false {l : JStr} {c t} (h : jsTrim l = c :: t) : isJsWs c = false :=
  dropWhile_head_false h

theorem jsTrimEnd_cons_not_ws {c : Char} (hc : isJsWs c = false) (t : JStr) :
    jsTrimEnd (c :: t) = c :: jsTrimEnd t := by
  unfold jsTrimEnd
  rw [List.reverse_cons]
  rcases hdrop : t.reverse.dropWhile isJsWs with _ | ⟨x, xs⟩
  · have hall : ∀ a ∈ t.reverse, isJsWs a = true := List.dropWhile_eq_nil_iff.mp hdrop
    rw [dropWhile_append_of_all hall, dropWhile_cons_of_false hc]
    simp [hdrop]
  · rw [dropWhile_append_of_ne_nil (by simp [hdrop]) [c], hdrop]
    simp

theorem jsTrimEnd_of_all_ws {l : JStr} (h : ∀ c ∈ l, isJsWs c = true) : jsTrimEnd l = [] := by
  unfold jsTrimEnd
  have h2 : l.reverse.dropWhile isJsWs = [] :=
    List.dropWhile_eq_nil_iff.mpr (fun x hx => h x (List.mem_reverse.mp hx))
  simp [h2]

theorem jsTrimEnd_append_of_not_all {u v : JStr}
    (hv : jsTrimEnd v ≠ []) : jsTrimEnd (u ++ v) = u ++ jsTrimEnd v := by
  unfold jsTrimEnd at hv ⊢
  rw [List.reverse_append]
  have hne : v.reverse.dropWhile isJsWs ≠ [] := by
    intro h; apply hv; simp [h]
  rw [dropWhile_append_of_ne_nil hne]
  simp

theorem jsTrim_cons_eq_trimEnd {c : Char} {t : JStr} (hc : isJsWs c = false) :
    jsTrim (c :: t) = c :: jsTrimEnd t := by
  unfold jsTrim
  rw [jsTrimEnd_cons_not_ws hc, dropWhile_cons_of_false hc]

theorem dropWhile_idem {α} (p : α → Bool) (l : List α) :
    (l.dropWhile p).dropWhile p = l.dropWhile p := by
  rcases h : l.dropWhile p with _ | ⟨c, t⟩
  · rfl
  · exact dropWhile_cons_of_false (dropWhile_head_false h) t

theorem jsTrimEnd_idem (l : JStr) : jsTrimEnd (jsTrimEnd l) = jsTrimEnd l := by
  unfold jsTrimEnd
  rw [List.reverse_reverse, dropWhile_idem]

theorem reverse_jsTrim_head_false {l : JStr} {c t} (h : (jsTrim l).reverse = c :: t) :
    isJsWs c = false := by
  have hx : (jsTrimEnd l).reverse = (l.reverse.dropWhile isJsWs) := by
    unfold jsTrimEnd; rw [List.reverse_reverse]
  have hsuf : jsTrim l <:+ jsTrimEnd l := List.dropWhile_suffix isJsWs
  obtain ⟨u, hu⟩ := hsuf
  have hpre : (jsTrim l).reverse <+: (jsTrimEnd l).reverse := by
    rw [← hu, List.reverse_append]; exact ⟨u.reverse, rfl⟩
  obtain ⟨z, hz⟩ := hpre
  rw [h] at hz
  rw [hx] at hz
  exact dropWhile_head_false hz.symm

theorem jsTrim_idem (l : JStr) : jsTrim (jsTrim l) = jsTrim l := by
  rcases hy : jsTrim l with _ | ⟨c, t⟩
  · rfl
  · have hE : jsTrimEnd (c :: t) = c :: t := by
      have hrev : (c :: t).reverse.dropWhile isJsWs = (c :: t).reverse := by
        rcases hr : (c :: t).reverse with _ | ⟨d, ds⟩
        · simp at hr
        · have hd : isJsWs d = false := by
            have hrl : (jsTrim l).reverse = d :: ds := by rw [hy, hr]
            exact reverse_jsTrim_head_false hrl
          rw [dropWhile_cons_of_false hd]
      unfold jsTrimEnd
      rw [hrev, List.reverse_reverse]
    have hc : isJsWs c = false := jsTrim_head_false hy
    show jsTrim (c :: t) = c :: t
    unfold jsTrim
    rw [hE, dropWhile_cons_of_false hc]

/-! ### Replacement lemmas -/

theorem not_prefix_of_head_ne {p0 c : Char} {pr cs : JStr} (h : c ≠ p0) :
    ¬((p0 :: pr).isPrefixOf (c :: cs) = true) := by
  rw [List.isPrefixOf_iff_prefix]
  intro ⟨z, hz⟩
  injection hz with h1 _
  exact h h1.symm

theorem replAllGo_no_head {p0 : Char} {pr rep : JStr} :
    ∀ (f : Nat) (s : JStr), (∀ c ∈ s, c ≠ p0) → replAllGo (p0 :: pr) rep f s = s := by
  intro f s
  induction s generalizing f with
  | nil => intro _; cases f <;> rfl
  | cons c cs ih =>
    intro hs
    cases f with
    | zero => rfl
    | succ f' =>
      have hne : c ≠ p0 := hs c (by simp)
      show (if (p0 :: pr).isPrefixOf (c :: cs) = true then _ else _) = _
      rw [if_neg (not_prefix_of_head_ne hne)]
      rw [ih f' (fun x hx => hs x (by simp [hx]))]

theorem replAllGo_append_free {p0 : Char} {pr rep : JStr} (u w : JStr)
    (hu : ∀ c ∈ u, c ≠ p0) (f : Nat) :
    replAllGo (p0 :: pr) rep (u.length + f) (u ++ w) = u ++ replAllGo (p0 :: pr) rep f w := by
  induction u with
  | nil => simp
  | cons c u' ih =>
    have hne : c ≠ p0 := hu c (by simp)
    have hlen : (c :: u').length + f = (u'.length + f) + 1 := by simp; omega
    rw [hlen]
    show (if (p0 :: pr).isPrefixOf (c :: (u' ++ w)) = true then _ else _) = _
    rw [if_neg (not_prefix_of_head_ne hne)]
    exact congrArg (List.cons c) (ih (fun x hx => hu x (by simp [hx])))

theorem replAllGo_match {pat rep v : JStr} (f : Nat) (hpat : pat ≠ []) :
    replAllGo pat rep (f + 1) (pat ++ v) = rep ++ replAllGo pat rep f v := by
  obtain ⟨p0, pr, rfl⟩ : ∃ p0 pr, pat = p0 :: pr := by
    cases pat with
    | nil => exact absurd rfl hpat
    | cons a b => exact ⟨a, b, rfl⟩
  show (if (p0 :: pr).isPrefixOf (p0 :: (pr ++ v)) = true then _ else _) = _
  rw [if_pos]
  · have hdrop : List.drop (p0 :: pr).length (p0 :: (pr ++ v)) = v := by
      show List.drop (pr.length + 1) (p0 :: (pr ++ v)) = v
      rw [List.drop_succ_cons]
      exact List.drop_left pr v
    exact congrArg (fun z => rep ++ replAllGo (p0 :: pr) rep f z) hdrop
  · rw [List.isPrefixOf_iff_prefix]
    exact ⟨v, by simp⟩

theorem replaceAll_splice {p0 : Char} {pr rep u v : JStr}
    (hu : ∀ c ∈ u, c ≠ p0) (hv : ∀ c ∈ v, c ≠ p0) :
    replaceAll (p0 :: pr) rep (u ++ (p0 :: pr) ++ v) = u ++ rep ++ v := by
  unfold replaceAll
  rw [if_neg (by simp : ¬(p0 :: pr) = [])]
  have hlen : (u ++ (p0 :: pr) ++ v).length = u.length + ((pr.length + v.length) + 1) := by
    simp [List.length_append]
  rw [hlen, List.append_assoc]
  rw [replAllGo_append_free u ((p0 :: pr) ++ v) hu ((pr.length + v.length) + 1)]
  have hm : replAllGo (p0 :: pr) rep ((pr.length + v.length) + 1) ((p0 :: pr) ++ v) =
      rep ++ replAllGo (p0 :: pr) rep (pr.length + v.length) v :=
    replAllGo_match _ (by simp)
  rw [hm, replAllGo_no_head _ v hv]
  exact (List.append_assoc u rep v).symm

/-! ### Claim C2 -/

/-- C2 (counterexample): extracting the fenced block of a minimal fenced
input and restoring it in plain mode does not reproduce the original text
(the extracted body keeps its trailing newline and restoration inserts
another newline before the closing delimiter plus a trailing newline). -/
theorem C2_roundtrip_cex :
    restoreFencedBlocks (extractFencedBlocks (("```\nab\n```").toList)).1
      (extractFencedBlocks (("```\nab\n```").toList)).2 false ≠ (("```\nab\n```").toList) := by
  decide

/-- C2 (amended): table conversion and whitespace normalization never touch
the extracted block list, and plain-mode restoration substitutes each stored
body verbatim: whatever sentinel-free context surrounds the placeholder,
restoration yields the context with the placeholder replaced by
delimiter + optional space-prefixed language tag + newline + body + newline
+ delimiter + newline (not the original fenced text exactly). -/
theorem C2_restore_format (b : FenceBlock) (u v : JStr)
    (hu : ∀ c ∈ u, c ≠ '\x00') (hv : ∀ c ∈ v, c ≠ '\x00') :
    restoreFencedBlocks (u ++ fencePh 0 ++ v) [b] false =
      u ++ (b.fenceType ++ (if b.lang = [] then [] else ' ' :: b.lang) ++
        '\n' :: (b.body ++ '\n' :: (b.fenceType ++ ['\n']))) ++ v := by
  show replaceAll (fencePh 0) (fenceReplacement b false) (u ++ fencePh 0 ++ v) = _
  have h := @replaceAll_splice '\x00'
    (("FENCE").toList ++ (Nat.repr 0).toList ++ ['\x00'])
    (fenceReplacement b false) u v hu hv
  exact h

/-- C2 witness: the amended restoration law evaluated at a concrete block
and context. -/
theorem C2_restore_format_witness :
    restoreFencedBlocks ((("A\n").toList) ++ fencePh 0 ++ (("\nB").toList))
      [⟨(("js").toList), (("x\n").toList), (("```").toList)⟩] false =
      (("A\n").toList) ++ ((("```").toList) ++
        (if (("js").toList : JStr) = [] then [] else ' ' :: (("js").toList)) ++
        '\n' :: ((("x\n").toList) ++ '\n' :: ((("```").toList) ++ ['\n']))) ++ (("\nB").toList) :=
  C2_restore_format ⟨(("js").toList), (("x\n").toList), (("```").toList)⟩
    (("A\n").toList) (("\nB").toList) (by decide) (by decide)

/-! ### Claim C7 -/

/-- C7: for every options value, a non-string text argument yields a single
empty chunk and a null parse mode, with no exception (the function is
total). -/
theorem C7_nonstring_input (o : PreOptions) : preprocess .nonstr o = ⟨[[]], none⟩ := rfl

/-! ### Claim C5: normalization order of operations -/

theorem replAllGo_crlf : ∀ (f : Nat) (t : JStr), t.length ≤ f →
    replAllGo (("\r\n").toList) (("\n").toList) f t = crlf2lf t := by
  intro f
  induction f with
  | zero =>
    intro t ht
    have : t = [] := List.length_eq_zero.mp (Nat.le_zero.mp ht)
    subst this; rfl
  | succ f ih =>
    intro t ht
    rcases t with _ | ⟨c, cs⟩
    · rfl
    · show (if (("\r\n").toList).isPrefixOf (c :: cs) = true then _ else _) = _
      by_cases hP : (("\r\n").toList).isPrefixOf (c :: cs) = true
      · rw [if_pos hP]
        rw [List.isPrefixOf_iff_prefix] at hP
        obtain ⟨z, hz⟩ := hP
        have hc : c = '\r' := by injection hz with h1 _; exact h1.symm
        have hcs : cs = '\n' :: z := by injection hz with _ h2; exact h2.symm
        subst hc; subst hcs
        have hlen : z.length ≤ f := by simp at ht; omega
        show ['\n'] ++ replAllGo (("\r\n").toList) (("\n").toList) f z = _
        rw [ih z hlen]
        simp [crlf2lf]
      · rw [if_neg hP]
        have hlen : cs.length ≤ f := by simp at ht; omega
        rw [ih cs hlen]
        rcases cs with _ | ⟨d, rest⟩
        · rfl
        · show c :: crlf2lf (d :: rest) = crlf2lf (c :: d :: rest)
          have hcd : ¬(c = '\r' ∧ d = '\n') := by
            intro ⟨h1, h2⟩
            subst h1; subst h2
            exact hP (by rw [List.isPrefixOf_iff_prefix]; exact ⟨rest, rfl⟩)
          rw [crlf2lf]
          rw [if_neg hcd]

theorem replAllGo_cr : ∀ (f : Nat) (t : JStr), t.length ≤ f →
    replAllGo (("\r").toList) (("\n").toList) f t = cr2lf t := by
  intro f
  induction f with
  | zero =>
    intro t ht
    have : t = [] := List.length_eq_zero.mp (Nat.le_zero.mp ht)
    subst this; rfl
  | succ f ih =>
    intro t ht
    rcases t with _ | ⟨c, cs⟩
    · rfl
    · show (if ('\r' :: ([] : List Char)).isPrefixOf (c :: cs) = true then _ else _) = _
      have hlen : cs.length ≤ f := by simp at ht; omega
      by_cases hc : c = '\r'
      · subst hc
        rw [if_pos (by rw [List.isPrefixOf_iff_prefix]; exact ⟨cs, rfl⟩)]
        show ['\n'] ++ replAllGo (("\r").toList) (("\n").toList) f cs = _
        rw [ih cs hlen, cr2lf]
        simp
      · rw [if_neg (not_prefix_of_head_ne (fun h => hc h))]
        rw [ih cs hlen, cr2lf]
        simp [hc]

theorem cr2lf_crlf2lf : ∀ (n : Nat) (t : JStr), t.length ≤ n →
    cr2lf (crlf2lf t) = specUnifyEol t := by
  intro n
  induction n with
  | zero =>
    intro t ht
    have : t = [] := List.length_eq_zero.mp (Nat.le_zero.mp ht)
    subst this; rfl
  | succ n ih =>
    intro t ht
    rcases t with _ | ⟨c, cs⟩
    · rfl
    · rcases cs with _ | ⟨d, rest⟩
      · show cr2lf (crlf2lf [c]) = specUnifyEol [c]
        by_cases hc : c = '\r' <;> simp [crlf2lf, cr2lf, specUnifyEol, hc]
      · by_cases h1 : c = '\r' ∧ d = '\n'
        · obtain ⟨hc, hd⟩ := h1
          subst hc; subst hd
          rw [crlf2lf, if_pos ⟨rfl, rfl⟩]
          rw [cr2lf, specUnifyEol]
          simp only [if_pos rfl, if_pos (rfl : ('\n' : Char) = '\n')]
          have hlen : rest.length ≤ n := by simp at ht; omega
          rw [ih rest hlen]
          simp
        · rw [crlf2lf, if_neg h1]
          rw [cr2lf]
          have hlen : (d :: rest).length ≤ n := by simp at ht ⊢; omega
          rw [ih (d :: rest) hlen]
          by_cases hc : c = '\r'
          · subst hc
            have hd : ¬ d = '\n' := fun hd => h1 ⟨rfl, hd⟩
            rw [specUnifyEol, if_pos rfl, if_neg hd]
            simp
          · rw [specUnifyEol, if_neg hc]
            simp [hc]


theorem collapseNLGo_nil (f : Nat) : collapseNLGo f [] = [] := by cases f <;> rfl

theorem nlRunGo_nil (g : Nat) : nlRunGo g [] = [] := by cases g <;> rfl

theorem collapseNLGo_cons (f : Nat) (c : Char) (cs : JStr) :
    collapseNLGo (f + 1) (c :: cs) =
      if c = '\n' ∧ cs.head? = some '\n' ∧ cs.tail.head? = some '\n' then
        '\n' :: '\n' :: collapseNLGo f (cs.tail.tail.dropWhile (fun x => x == '\n'))
      else c :: collapseNLGo f cs := rfl

theorem nlRunGo_cons (g : Nat) (c : Char) (cs : JStr) :
    nlRunGo (g + 1) (c :: cs) =
      if c = '\n' then
        (if 3 ≤ 1 + (cs.takeWhile (fun x => x == '\n')).length then List.replicate 2 '\n'
         else List.replicate (1 + (cs.takeWhile (fun x => x == '\n')).length) '\n') ++
          nlRunGo g (cs.dropWhile (fun x => x == '\n'))
      else c :: nlRunGo g cs := rfl

theorem collapseNLGo_eq_nlRunGo : ∀ (n : Nat) (t : JStr) (f g : Nat),
    t.length ≤ n → t.length ≤ f → t.length ≤ g →
    collapseNLGo f t = nlRunGo g t := by
  intro n
  induction n with
  | zero =>
    intro t f g ht _ _
    have : t = [] := List.length_eq_zero.mp (Nat.le_zero.mp ht)
    subst this
    rw [collapseNLGo_nil, nlRunGo_nil]
  | succ n ih =>
    intro t f g ht hf hg
    rcases t with _ | ⟨c, cs⟩
    · rw [collapseNLGo_nil, nlRunGo_nil]
    · obtain ⟨f', rfl⟩ : ∃ f', f = f' + 1 := by
        cases f with
        | zero => simp at hf
        | succ k => exact ⟨k, rfl⟩
      obtain ⟨g', rfl⟩ : ∃ g', g = g' + 1 := by
        cases g with
        | zero => simp at hg
        | succ k => exact ⟨k, rfl⟩
      simp only [List.length_cons] at ht hf hg
      rw [collapseNLGo_cons, nlRunGo_cons]
      by_cases hc : c = '\n'
      · subst hc
        rw [if_pos rfl]
        rcases cs with _ | ⟨d, cs2⟩
        · -- t = ['\n']
          rw [if_neg (by simp)]
          simp only [List.takeWhile_nil, List.dropWhile_nil, List.length_nil]
          rw [if_neg (by norm_num), collapseNLGo_nil, nlRunGo_nil]
          rfl
        · by_cases hd : d = '\n'
          · subst hd
            rcases cs2 with _ | ⟨e, cs3⟩
            · -- t = ['\n', '\n']
              rw [if_neg (by simp)]
              rw [List.takeWhile_cons_of_pos (by rfl), List.takeWhile_nil,
                List.dropWhile_cons_of_pos (by rfl), List.dropWhile_nil]
              rw [if_neg (by simp), nlRunGo_nil]
              obtain ⟨f'', rfl⟩ : ∃ f'', f' = f'' + 1 := by
                cases f' with
                | zero => simp at hf
                | succ k => exact ⟨k, rfl⟩
              rw [collapseNLGo_cons, if_neg (by simp), collapseNLGo_nil]
              rfl
            · by_cases he : e = '\n'
              · subst he
                -- run of ≥ 3 newlines
                rw [if_pos ⟨rfl, rfl, rfl⟩]
                simp only [List.tail_cons]
                rw [List.takeWhile_cons_of_pos (by rfl), List.takeWhile_cons_of_pos (by rfl)]
                rw [if_pos (by simp; omega)]
                rw [List.dropWhile_cons_of_pos (by rfl), List.dropWhile_cons_of_pos (by rfl)]
                have hlen : (cs3.dropWhile (fun x => x == '\n')).length ≤ cs3.length :=
                  (List.dropWhile_suffix _).length_le
                simp only [List.length_cons] at ht hf hg
                have hrec := ih (cs3.dropWhile (fun x => x == '\n')) f' g'
                  (by omega) (by omega) (by omega)
                rw [hrec]
                rfl
              · -- exactly two newlines
                rw [if_neg (by simp [he])]
                rw [List.takeWhile_cons_of_pos (by rfl), List.takeWhile_cons_of_neg (by simp [he])]
                rw [List.dropWhile_cons_of_pos (by rfl), List.dropWhile_cons_of_neg (by simp [he])]
                rw [if_neg (by simp)]
                simp only [List.length_cons] at ht hf hg
                obtain ⟨f'', rfl⟩ : ∃ f'', f' = f'' + 1 := by
                  cases f' with
                  | zero => omega
                  | succ k => exact ⟨k, rfl⟩
                rw [collapseNLGo_cons, if_neg (by simp [he])]
                have hrec := ih (e :: cs3) f'' g' (by simp; omega) (by simp; omega) (by simp; omega)
                rw [hrec]
                rfl
          · -- single newline then non-newline
            rw [if_neg (by simp [hd])]
            rw [List.takeWhile_cons_of_neg (by simp [hd]), List.dropWhile_cons_of_neg (by simp [hd])]
            rw [if_neg (by simp)]
            simp only [List.length_cons] at ht hf hg
            have hrec := ih (d :: cs2) f' g' (by simp; omega) (by simp; omega) (by simp; omega)
            rw [hrec]
            rfl
      · rw [if_neg (by simp [hc]), if_neg hc]
        exact congrArg (List.cons c) (ih cs f' g' (by omega) (by omega) (by omega))

/-- C5 (counterexample): the claim's collapse rule read literally ("3+
consecutive blank lines become one blank line", that is only runs of four or
more newlines collapse) disagrees with the code on a run of exactly three
newlines (two blank lines), which the code collapses to one blank line. -/
theorem C5_collapse_cex :
    normalizeWhitespace (("a\n\n\nb").toList) ≠ specNormalizeLiteral (("a\n\n\nb").toList) := by
  decide

/-- C5 (amended): `normalizeWhitespace` performs, in order: unifying CRLF
and lone CR line endings to a newline, collapsing every maximal run of three
or more consecutive newline characters (two or more blank lines) to exactly
two newlines (one blank line), right-trimming every line, and trimming the
whole text — proved against an independently written specification model of
the first two steps. -/
theorem C5_normalize_order (t : JStr) : normalizeWhitespace t = specNormalizeAmended t := by
  unfold normalizeWhitespace specNormalizeAmended
  have h1 : replaceAll (("\r\n").toList) (("\n").toList) t = crlf2lf t := by
    unfold replaceAll
    rw [if_neg (by simp)]
    exact replAllGo_crlf t.length t le_rfl
  have h2 : replaceAll (("\r").toList) (("\n").toList) (crlf2lf t) = cr2lf (crlf2lf t) := by
    unfold replaceAll
    rw [if_neg (by simp)]
    exact replAllGo_cr (crlf2lf t).length (crlf2lf t) le_rfl
  have h3 : cr2lf (crlf2lf t) = specUnifyEol t := cr2lf_crlf2lf t.length t le_rfl
  have h4 : collapseNL (specUnifyEol t) = nlRunCollapse (specUnifyEol t) := by
    unfold collapseNL nlRunCollapse
    exact collapseNLGo_eq_nlRunGo (specUnifyEol t).length (specUnifyEol t) _ _ le_rfl le_rfl le_rfl
  simp only [h1, h2, h3, h4]

/-! ### Chunker lemmas -/

theorem jsSlice_length (s : JStr) (a m : Nat) :
    (jsSlice s a (a + m)).length = min m (s.length - a) := by
  unfold jsSlice
  rw [List.length_take, List.length_drop, Nat.add_sub_cancel_left]

theorem nextSafeBreak_gt (text : JStr) (start maxLen : Nat) (hm : 1 ≤ maxLen)
    (hs : start < text.length) : start < nextSafeBreak text start maxLen := by
  simp only [nextSafeBreak]
  split
  · rename_i hlen
    rw [jsSlice_length] at *
    omega
  · split
    · rename_i h1
      omega
    · split
      · rename_i h2
        omega
      · omega

theorem skipWs_le (text : JStr) (b : Nat) : b ≤ skipWs text b := Nat.le_add_right _ _

theorem splitGo_some (text : JStr) (maxLen : Nat) (hm : 1 ≤ maxLen) :
    ∀ (fuel start : Nat), text.length - start < fuel →
      (splitGo text maxLen fuel start).isSome = true := by
  intro fuel
  induction fuel with
  | zero => intro start h; omega
  | succ f ih =>
    intro start h
    simp only [splitGo]
    split
    · rename_i hlt
      have hb : start < nextSafeBreak text start maxLen := nextSafeBreak_gt text start maxLen hm hlt
      have hb2 : nextSafeBreak text start maxLen ≤ skipWs text (nextSafeBreak text start maxLen) :=
        skipWs_le _ _
      have hrec := ih (skipWs text (nextSafeBreak text start maxLen)) (by omega)
      rcases hopt : splitGo text maxLen f (skipWs text (nextSafeBreak text start maxLen)) with _ | x
      · rw [hopt] at hrec; simp at hrec
      · rfl
    · rfl

theorem drop_append_slice (text : JStr) {a b : Nat} (hab : a ≤ b) :
    text.drop a = jsSlice text a b ++ text.drop b := by
  unfold jsSlice
  conv_lhs => rw [← List.take_append_drop (b - a) (text.drop a)]
  congr 1
  rw [List.drop_drop]
  congr 1
  omega

theorem drop_skipWs (text : JStr) (b : Nat) :
    text.drop b =
      ((text.drop b).takeWhile (fun c => c == '\n' || c == ' ')) ++ text.drop (skipWs text b) := by
  unfold skipWs
  rw [← List.drop_drop ((List.takeWhile (fun c => c == '\n' || c == ' ') (text.drop b)).length) b text,
    drop_length_takeWhile, List.takeWhile_append_dropWhile]

theorem skip_chars_ws {c : Char} (h : (c == '\n' || c == ' ') = true) : isJsWs c = true := by
  rcases Bool.or_eq_true_iff.mp h with h1 | h1
  · have : c = '\n' := by simpa using h1
    subst this; rfl
  · have : c = ' ' := by simpa using h1
    subst this; rfl

theorem chunksRebuild_ws_pre {w : JStr} (hw : ∀ c ∈ w, isJsWs c = true)
    (s : JStr) (cs : List JStr) : chunksRebuild (w ++ s) cs = chunksRebuild s cs := by
  cases cs with
  | nil => simp only [chunksRebuild, dropWhile_append_of_all hw]
  | cons c cs' => simp only [chunksRebuild, dropWhile_append_of_all hw]

theorem splitGo_rebuild (text : JStr) (maxLen : Nat) (hm : 1 ≤ maxLen) :
    ∀ (fuel start : Nat) (cs : List JStr),
      splitGo text maxLen fuel start = some cs →
      chunksRebuild (text.drop start) (cs.filter (fun c => !c.isEmpty)) = true := by
  intro fuel
  induction fuel with
  | zero => intro start cs h; simp [splitGo] at h
  | succ f ih =>
    intro start cs h
    simp only [splitGo] at h
    by_cases hlt : start < text.length
    · rw [if_pos hlt] at h
      rw [Option.map_eq_some'] at h
      obtain ⟨cs', hrec, rfl⟩ := h
      set breakAt := nextSafeBreak text start maxLen with hbdef
      have hb : start < breakAt := nextSafeBreak_gt text start maxLen hm hlt
      set slice := jsSlice text start breakAt with hslice
      set chunk := jsTrim slice with hchunkdef
      -- decomposition of the remaining text
      have hd1 : text.drop start = slice ++ text.drop breakAt :=
        drop_append_slice text (Nat.le_of_lt hb)
      have hd2 : text.drop breakAt =
          ((text.drop breakAt).takeWhile (fun c => c == '\n' || c == ' ')) ++
            text.drop (skipWs text breakAt) := drop_skipWs text breakAt
      obtain ⟨u, v, hsl, hu, hv⟩ := jsTrim_decomp slice
      have hskipws : ∀ c ∈ (text.drop breakAt).takeWhile (fun c => c == '\n' || c == ' '),
          isJsWs c = true := by
        intro x hx
        have hx2 := List.mem_takeWhile_imp hx
        exact skip_chars_ws hx2
      have hIH := ih (skipWs text breakAt) cs' hrec
      by_cases hch : chunk = []
      · -- empty chunk: the whole slice is whitespace and the chunk is filtered out
        have hallws : ∀ c ∈ slice, isJsWs c = true := by
          intro c hc
          rw [hsl, ← hchunkdef, hch] at hc
          simp only [List.append_nil, List.nil_append, List.append_assoc] at hc
          rcases List.mem_append.mp hc with h1 | h1
          · exact hu c h1
          · exact hv c h1
        rw [hd1, hd2, ← List.append_assoc]
        rw [List.filter_cons, hch]
        rw [if_neg (by decide)]
        rw [chunksRebuild_ws_pre ?hws]
        · exact hIH
        · intro c hc
          rcases List.mem_append.mp hc with h1 | h1
          · exact hallws c h1
          · exact hskipws c h1
      · -- non-empty chunk
        obtain ⟨ch, cht, hcons⟩ : ∃ ch cht, chunk = ch :: cht := by
          rcases chunk with _ | ⟨a, b⟩
          · exact absurd rfl hch
          · exact ⟨a, b, rfl⟩
        rw [List.filter_cons]
        rw [if_pos (by simp [hch])]
        rw [hd1, hd2, hsl]
        show chunksRebuild ((u ++ chunk ++ v) ++
          ((text.drop breakAt).takeWhile (fun c => c == '\n' || c == ' ') ++
            text.drop (skipWs text breakAt))) (chunk :: cs'.filter (fun c => !c.isEmpty)) = true
        simp only [chunksRebuild]
        have hchhead : isJsWs ch = false := by
          have h9 : jsTrim slice = ch :: cht := by rw [← hchunkdef]; exact hcons
          exact jsTrim_head_false h9
        have hdw : ((u ++ chunk ++ v) ++
            ((text.drop breakAt).takeWhile (fun c => c == '\n' || c == ' ') ++
              text.drop (skipWs text breakAt))).dropWhile isJsWs =
            chunk ++ (v ++ ((text.drop breakAt).takeWhile (fun c => c == '\n' || c == ' ') ++
              text.drop (skipWs text breakAt))) := by
          rw [List.append_assoc u chunk v, List.append_assoc]
          rw [dropWhile_append_of_all hu]
          rw [hcons, List.cons_append, List.cons_append]
          rw [dropWhile_cons_of_false hchhead]
          simp [List.append_assoc]
        rw [hdw]
        rw [Bool.and_eq_true]
        constructor
        · rw [List.isPrefixOf_iff_prefix]
          exact ⟨_, rfl⟩
        · rw [List.drop_left]
          rw [← List.append_assoc]
          rw [chunksRebuild_ws_pre ?hws2]
          · exact hIH
          · intro c hc
            rcases List.mem_append.mp hc with h1 | h1
            · exact hv c h1
            · exact hskipws c h1
    · rw [if_neg hlt] at h
      injection h with h
      subst h
      have : text.drop start = [] := List.drop_eq_nil_of_le (by omega)
      rw [this]
      rfl

theorem splitGo_trimmed (text : JStr) (maxLen : Nat) :
    ∀ (fuel start : Nat) (cs : List JStr),
      splitGo text maxLen fuel start = some cs →
      ∀ c ∈ cs, jsTrim c = c := by
  intro fuel
  induction fuel with
  | zero => intro start cs h; simp [splitGo] at h
  | succ f ih =>
    intro start cs h
    simp only [splitGo] at h
    by_cases hlt : start < text.length
    · rw [if_pos hlt] at h
      rw [Option.map_eq_some'] at h
      obtain ⟨cs', hrec, rfl⟩ := h
      intro c hc
      rcases List.mem_cons.mp hc with h1 | h1
      · subst h1; exact jsTrim_idem _
      · exact ih _ cs' hrec c h1
    · rw [if_neg hlt] at h
      injection h with h
      subst h
      intro c hc
      simp at hc

/-! ### Claim C1 -/

/-- C1 (code defect): with the entity `&amp;` spanning positions 8 to 13 of
the input and maxLen 10, the code's own entity matcher recognizes the entity
at position 8 (length 5), yet `nextSafeBreak` returns the raw cut 10 and the
chunker bisects the entity into `"aaaaaaaa&a"` and `"mp;bb"`: the `best`
value computed from the structural scans has an unsatisfiable update
condition and is not used in the returned breakpoint. -/
theorem C1_breakpoint_inside_entity :
    entityMatchAt (("aaaaaaaa&amp;bb").toList) 8 = some 5 ∧
    nextSafeBreak (("aaaaaaaa&amp;bb").toList) 0 10 = 10 ∧
    splitChunksSafe (("aaaaaaaa&amp;bb").toList) 10 =
      [("aaaaaaaa&a").toList, ("mp;bb").toList] := by
  refine ⟨by decide, by decide, by decide⟩

/-! ### Claim C10 -/

/-- C10: for maxLen at least one, every loop iteration's breakpoint strictly
exceeds the current start position, and the fueled splitting loop (with fuel
one more than the text length) runs to completion. -/
theorem C10_split_terminates (text : JStr) (maxLen : Nat) (hm : 1 ≤ maxLen) :
    (∀ start, start < text.length → start < nextSafeBreak text start maxLen) ∧
    (splitGo text maxLen (text.length + 1) 0).isSome = true := by
  constructor
  · intro s hs
    exact nextSafeBreak_gt text s maxLen hm hs
  · exact splitGo_some text maxLen hm (text.length + 1) 0 (by omega)

/-- C10 witness: termination at a concrete input. -/
theorem C10_split_terminates_witness :
    (splitGo (("aaaa\nbbbb\ncccc\ndddd").toList) 10
      (((("aaaa\nbbbb\ncccc\ndddd").toList)).length + 1) 0).isSome = true :=
  (C10_split_terminates (("aaaa\nbbbb\ncccc\ndddd").toList) 10 (by decide)).2

/-! ### Claim C3 -/

/-- C3 (counterexample): when the input is at most maxLen long it is
returned whole, so a chunk can be empty (empty input) or untrimmed. -/
theorem C3_short_input_cex :
    (([] : JStr) ∈ splitChunksSafe ([] : JStr) 10) ∧
    splitChunksSafe ((" a ").toList) 10 = [(" a ").toList] ∧
    jsTrim ((" a ").toList) ≠ (" a ").toList := by
  refine ⟨by decide, by decide, by decide⟩

/-- C3 (amended): for maxLen at least one: input no longer than maxLen is
returned as the single chunk, unchanged (possibly empty or untrimmed);
longer input yields only non-empty trimmed chunks whose in-order
concatenation, interleaved with whitespace-only gaps, reproduces the input
text. -/
theorem C3_split_reconstruction (text : JStr) (maxLen : Nat) (hm : 1 ≤ maxLen) :
    (text.length ≤ maxLen → splitChunksSafe text maxLen = [text]) ∧
    (maxLen < text.length →
      (∀ c ∈ splitChunksSafe text maxLen, c ≠ [] ∧ jsTrim c = c) ∧
      chunksRebuild text (splitChunksSafe text maxLen) = true) := by
  constructor
  · intro hle
    unfold splitChunksSafe
    rw [if_pos hle]
  · intro hgt
    have hsome := splitGo_some text maxLen hm (text.length + 1) 0 (by omega)
    obtain ⟨cs, hcs⟩ := Option.isSome_iff_exists.mp hsome
    have hchunks : splitChunksSafe text maxLen = cs.filter (fun c => !c.isEmpty) := by
      unfold splitChunksSafe
      rw [if_neg (by omega), hcs]
      rfl
    constructor
    · intro c hc
      rw [hchunks] at hc
      have hmem := List.mem_filter.mp hc
      constructor
      · intro hnil
        subst hnil
        simp at hmem
      · exact splitGo_trimmed text maxLen (text.length + 1) 0 cs hcs c hmem.1
    · rw [hchunks]
      have := splitGo_rebuild text maxLen hm (text.length + 1) 0 cs hcs
      simpa using this

/-- C3 witness: the amended splitting contract evaluated at a concrete
oversized input. -/
theorem C3_split_reconstruction_witness :
    (∀ c ∈ splitChunksSafe (("aaaa\nbbbb\ncccc\ndddd").toList) 10, c ≠ [] ∧ jsTrim c = c) ∧
    chunksRebuild (("aaaa\nbbbb\ncccc\ndddd").toList)
      (splitChunksSafe (("aaaa\nbbbb\ncccc\ndddd").toList) 10) = true :=
  (C3_split_reconstruction (("aaaa\nbbbb\ncccc\ndddd").toList) 10 (by decide)).2 (by decide)

/-! ### Claim C6 -/

/-- C6: with splitting disabled the pipeline always returns exactly one
chunk, and on the markdown-table scenario the single chunk is the bullet
rendering with no pipe character. -/
theorem C6_split_false :
    (∀ (t : JStr) (o : PreOptions), o.split = false →
      (preprocess (.str t) o).chunks.length = 1) ∧
    preprocess (.str (("| Name | Price |\n|---|---|\n| A | 1 |\n| B | 2 |").toList))
        ⟨none, false, 4096, false⟩ =
      ⟨[("• Name: A · Price: 1\n• Name: B · Price: 2").toList], none⟩ ∧
    (("• Name: A · Price: 1\n• Name: B · Price: 2").toList).contains '|' = false := by
  refine ⟨?_, by decide, by decide⟩
  intro t o ho
  simp only [preprocess, ho]
  split <;> split <;> simp

/-- C6 witness: one chunk for a concrete input with splitting disabled. -/
theorem C6_split_false_witness :
    (preprocess (.str (("x").toList)) ⟨none, false, 4096, false⟩).chunks.length = 1 :=
  C6_split_false.1 (("x").toList) ⟨none, false, 4096, false⟩ rfl

/-! ### Claims C8 and C9 -/

/-- C8 (counterexample): a caller-supplied falsy parse_mode (the empty
string) is overridden by the injected HTML parse mode, so the caller's value
is not passed through to the underlying send. -/
theorem C8_parse_mode_falsy_cex :
    ¬(∀ call ∈ proxySendCalls ⟨("telegramHtml").toList, 4096, true, 300, true⟩ 7
        (.str (("x").toList)) ⟨some [], []⟩,
      (call.2.2).parse_mode = some []) := by
  decide

/-- C8 (amended): on the preprocessing path every per-chunk underlying send
uses the same merged options; when the pipeline's render mode is HTML and
the caller's parse_mode is falsy (absent or empty), parse_mode HTML is
injected; a truthy caller-supplied parse_mode is passed through unchanged;
all other caller-supplied fields are passed through unchanged in every
case. -/
theorem C8_parse_mode_merge (po : ProxyOptions) (chatId : Nat) (s : JStr) (opts : SendOptions)
    (hen : po.enabled = true) (hnb : jsTrim s ≠ []) :
    (proxySendCalls po chatId (.str s) opts =
      (preprocess (.str s) ⟨some po.style, false, po.maxChunkLength, po.split⟩).chunks.map
        (fun c => (chatId, JVal.str c,
          mergedOptions
            (preprocess (.str s) ⟨some po.style, false, po.maxChunkLength, po.split⟩).parseMode
            opts))) ∧
    (∀ pm : Option JStr,
      (pm = some (("HTML").toList) → optTruthy opts.parse_mode = false →
        mergedOptions pm opts = ⟨some (("HTML").toList), opts.rest⟩) ∧
      (optTruthy opts.parse_mode = true → mergedOptions pm opts = opts) ∧
      (mergedOptions pm opts).rest = opts.rest) := by
  constructor
  · show (if !po.enabled || (jsTrim s).isEmpty then _ else _) = _
    rw [if_neg]
    rw [Bool.or_eq_true, not_or]
    constructor
    · rw [hen]; simp
    · rw [List.isEmpty_eq_true]
      exact fun h => hnb (by simpa using h)
  · intro pm
    refine ⟨?_, ?_, ?_⟩
    · intro hpm hfal
      subst hpm
      unfold mergedOptions
      rw [if_pos]
      rw [hfal]
      simp [optTruthy]
    · intro htru
      unfold mergedOptions
      rw [htru]
      simp
    · unfold mergedOptions
      split <;> rfl

/-- C8 witness: the merge law at a concrete call. -/
theorem C8_parse_mode_merge_witness :
    proxySendCalls ⟨("telegramHtml").toList, 4096, true, 300, true⟩ 7
        (.str (("x").toList)) ⟨none, []⟩ =
      (preprocess (.str (("x").toList))
        ⟨some (("telegramHtml").toList), false, 4096, true⟩).chunks.map
        (fun c => (7, JVal.str c,
          mergedOptions
            (preprocess (.str (("x").toList))
              ⟨some (("telegramHtml").toList), false, 4096, true⟩).parseMode
            ⟨none, []⟩)) :=
  (C8_parse_mode_merge ⟨("telegramHtml").toList, 4096, true, 300, true⟩ 7 (("x").toList)
    ⟨none, []⟩ rfl (by decide)).1

/-- C9: a non-string text, or a string that trims to empty, bypasses the
pipeline even when preprocessing is enabled: exactly one underlying call is
issued, with the original text and the caller's options unmodified. -/
theorem C9_bypass (po : ProxyOptions) (chatId : Nat) (text : JVal) (opts : SendOptions)
    (h : text = .nonstr ∨ ∃ s, text = .str s ∧ jsTrim s = []) :
    proxySendCalls po chatId text opts = [(chatId, text, opts)] := by
  rcases h with h | ⟨s, rfl, hs⟩
  · subst h; rfl
  · show (if !po.enabled || (jsTrim s).isEmpty then _ else _) = _
    rw [if_pos]
    rw [hs]
    simp

/-- C9 witness: the bypass at a concrete whitespace-only message. -/
theorem C9_bypass_witness :
    proxySendCalls ProxyOptions.default 5 (.str (("  ").toList)) ⟨none, []⟩ =
      [(5, .str (("  ").toList), ⟨none, []⟩)] :=
  C9_bypass ProxyOptions.default 5 (.str (("  ").toList)) ⟨none, []⟩
    (Or.inr ⟨(("  ").toList), rfl, by decide⟩)

/-! ### Split and join lemmas for the table rewriter -/

theorem splitCh_ne_nil (c : Char) (l : JStr) : splitCh c l ≠ [] := by
  induction l with
  | nil => simp [splitCh]
  | cons x xs ih =>
    simp only [splitCh]
    by_cases hx : x = c
    · simp [hx]
    · rw [if_neg hx]
      rcases h : splitCh c xs with _ | ⟨p, ps⟩
      · simp
      · simp

theorem not_mem_of_mem_splitCh {c : Char} {l : JStr} :
    ∀ p ∈ splitCh c l, c ∉ p := by
  induction l with
  | nil =>
    intro p hp
    simp [splitCh] at hp
    subst hp; simp
  | cons x xs ih =>
    intro p hp
    simp only [splitCh] at hp
    by_cases hx : x = c
    · rw [if_pos hx] at hp
      rcases List.mem_cons.mp hp with h1 | h1
      · subst h1; simp
      · exact ih p h1
    · rw [if_neg hx] at hp
      rcases h : splitCh c xs with _ | ⟨q, qs⟩
      · exact absurd h (splitCh_ne_nil c xs)
      · rw [h] at hp
        rcases List.mem_cons.mp hp with h1 | h1
        · subst h1
          intro hm
          rcases List.mem_cons.mp hm with h2 | h2
          · exact hx h2.symm
          · exact ih q (h ▸ List.mem_cons_self q qs) h2
        · exact ih p (h ▸ List.mem_cons.mpr (Or.inr h1))

theorem mem_of_mem_splitCh {c : Char} {l : JStr} :
    ∀ p ∈ splitCh c l, ∀ x ∈ p, x ∈ l := by
  induction l with
  | nil =>
    intro p hp
    simp [splitCh] at hp
    subst hp; simp
  | cons y xs ih =>
    intro p hp x hx
    simp only [splitCh] at hp
    by_cases hy : y = c
    · rw [if_pos hy] at hp
      rcases List.mem_cons.mp hp with h1 | h1
      · subst h1; simp at hx
      · exact List.mem_cons.mpr (Or.inr (ih p h1 x hx))
    · rw [if_neg hy] at hp
      rcases h : splitCh c xs with _ | ⟨q, qs⟩
      · exact absurd h (splitCh_ne_nil c xs)
      · rw [h] at hp
        rcases List.mem_cons.mp hp with h1 | h1
        · subst h1
          rcases List.mem_cons.mp hx with h2 | h2
          · exact List.mem_cons.mpr (Or.inl h2)
          · exact List.mem_cons.mpr
              (Or.inr (ih q (h ▸ List.mem_cons_self q qs) x h2))
        · exact List.mem_cons.mpr (Or.inr (ih p (h ▸ List.mem_cons.mpr (Or.inr h1)) x hx))

theorem splitCh_no_sep {c : Char} {p : JStr} (hp : c ∉ p) : splitCh c p = [p] := by
  induction p with
  | nil => rfl
  | cons x xs ih =>
    have hx : ¬x = c := fun h => hp (by simp [h])
    simp only [splitCh]
    rw [if_neg hx, ih (fun h => hp (List.mem_cons.mpr (Or.inr h)))]

theorem splitCh_append_sep {c : Char} {p : JStr} (hp : c ∉ p) (rest : JStr) :
    splitCh c (p ++ c :: rest) = p :: splitCh c rest := by
  induction p with
  | nil => simp [splitCh]
  | cons x xs ih =>
    have hx : ¬x = c := fun h => hp (by simp [h])
    simp only [List.cons_append, splitCh, List.append_eq]
    rw [if_neg hx, ih (fun h => hp (List.mem_cons.mpr (Or.inr h)))]

theorem splitCh_joinSep {c : Char} :
    ∀ (parts : List JStr), parts ≠ [] → (∀ p ∈ parts, c ∉ p) →
      splitCh c (joinSep [c] parts) = parts := by
  intro parts
  induction parts with
  | nil => intro h; exact absurd rfl h
  | cons p ps ih =>
    intro _ hall
    rcases ps with _ | ⟨q, qs⟩
    · show splitCh c p = [p]
      exact splitCh_no_sep (hall p (by simp))
    · show splitCh c (p ++ [c] ++ joinSep [c] (q :: qs)) = p :: q :: qs
      rw [List.append_assoc, List.singleton_append]
      rw [splitCh_append_sep (hall p (by simp)) _]
      rw [ih (by simp) (fun r hr => hall r (List.mem_cons.mpr (Or.inr hr)))]

theorem mem_joinSep {x : Char} {sep : JStr} :
    ∀ {parts : List JStr}, x ∈ joinSep sep parts → x ∈ sep ∨ ∃ p ∈ parts, x ∈ p := by
  intro parts
  induction parts with
  | nil => intro h; simp [joinSep] at h
  | cons p ps ih =>
    intro h
    rcases ps with _ | ⟨q, qs⟩
    · exact Or.inr ⟨p, by simp, h⟩
    · have h' : x ∈ p ++ sep ++ joinSep sep (q :: qs) := h
      rcases List.mem_append.mp h' with h1 | h1
      · rcases List.mem_append.mp h1 with h2 | h2
        · exact Or.inr ⟨p, by simp, h2⟩
        · exact Or.inl h2
      · rcases ih h1 with h2 | ⟨r, hr, hxr⟩
        · exact Or.inl h2
        · exact Or.inr ⟨r, List.mem_cons.mpr (Or.inr hr), hxr⟩

theorem mem_jsTrim_of_mem {x : Char} {l : JStr} (h : x ∈ jsTrim l) : x ∈ l := by
  obtain ⟨u, v, hl, _, _⟩ := jsTrim_decomp l
  rw [hl]
  simp [h]

theorem mem_jsTrim_of_not_ws {x : Char} {l : JStr} (hx : isJsWs x = false) (h : x ∈ l) :
    x ∈ jsTrim l := by
  obtain ⟨u, v, hl, hu, hv⟩ := jsTrim_decomp l
  rw [hl] at h
  rcases List.mem_append.mp h with h1 | h1
  · rcases List.mem_append.mp h1 with h2 | h2
    · rw [hu x h2] at hx; cases hx
    · exact h2
  · rw [hv x h1] at hx; cases hx

theorem contains_jsTrim_eq {x : Char} (hx : isJsWs x = false) (l : JStr) :
    (jsTrim l).contains x = l.contains x := by
  show (jsTrim l).elem x = l.elem x
  by_cases h : x ∈ l
  · rw [List.elem_iff.mpr h, List.elem_iff.mpr (mem_jsTrim_of_not_ws hx h)]
  · have h2 : x ∉ jsTrim l := fun hm => h (mem_jsTrim_of_mem hm)
    cases hc : (jsTrim l).elem x
    · cases hc2 : l.elem x
      · rfl
      · exact absurd (List.elem_iff.mp hc2) h
    · exact absurd (List.elem_iff.mp hc) h2

/-! ### Separator-pattern lemmas -/

theorem sepAfterGroup_cons (f : Nat) (c : Char) (rest : JStr) :
    sepAfterGroup (f + 1) (c :: rest) =
      if c = '|' then
        rest.all isJsWs ||
          (!(rest.takeWhile isSepCl).isEmpty && sepAfterGroup f (rest.dropWhile isSepCl))
      else false := rfl

theorem sepMatch_cons (c : Char) (rest : JStr) :
    sepMatch (c :: rest) =
      if c = '|' then
        !(rest.takeWhile isSepCl).isEmpty &&
          sepAfterGroup ((c :: rest).length + 1) (rest.dropWhile isSepCl)
      else false := rfl

theorem sepAfterGroup_nil (f : Nat) : sepAfterGroup f [] = false := by cases f <;> rfl

theorem sepAfterGroup_fuel : ∀ (f₁ f₂ : Nat) (l : JStr), l.length < f₁ → l.length < f₂ →
    sepAfterGroup f₁ l = sepAfterGroup f₂ l := by
  intro f₁
  induction f₁ with
  | zero => intro f₂ l h1; omega
  | succ f₁' ih =>
    intro f₂ l h1 h2
    rcases l with _ | ⟨c, rest⟩
    · rw [sepAfterGroup_nil, sepAfterGroup_nil]
    · obtain ⟨f₂', rfl⟩ : ∃ k, f₂ = k + 1 := by
        cases f₂ with
        | zero => omega
        | succ k => exact ⟨k, rfl⟩
      rw [sepAfterGroup_cons, sepAfterGroup_cons]
      by_cases hc : c = '|'
      · rw [if_pos hc, if_pos hc]
        have hlen : (rest.dropWhile isSepCl).length ≤ rest.length :=
          (List.dropWhile_suffix _).length_le
      
        simp only [List.length_cons] at h1 h2
        rw [ih f₂' (rest.dropWhile isSepCl) (by omega) (by omega)]
      · rw [if_neg hc, if_neg hc]

theorem sepAfterGroup_head {f : Nat} {l : JStr} (h : sepAfterGroup f l = true) :
    ∃ rest, l = '|' :: rest := by
  cases f with
  | zero => cases h
  | succ f' =>
    rcases l with _ | ⟨c, rest⟩
    · rw [sepAfterGroup_nil] at h; cases h
    · rw [sepAfterGroup_cons] at h
      by_cases hc : c = '|'
      · exact ⟨rest, by rw [hc]⟩
      · rw [if_neg hc] at h; cases h

theorem isSepCl_pipe : isSepCl '|' = false := rfl

theorem isJsWs_pipe : isJsWs '|' = false := rfl

theorem takeWhile_append_cons_neg {p : Char → Bool} {g : JStr} {c : Char}
    (hg : ∀ x ∈ g, p x = true) (hc : p c = false) (w : JStr) :
    (g ++ c :: w).takeWhile p = g := by
  induction g with
  | nil =>
    rw [List.nil_append]
    exact List.takeWhile_cons_of_neg (by simp [hc])
  | cons y ys ih =>
    rw [List.cons_append, List.takeWhile_cons_of_pos (hg y (by simp))]
    rw [ih (fun x hx => hg x (by simp [hx]))]

theorem dropWhile_append_cons_neg {p : Char → Bool} {g : JStr} {c : Char}
    (hg : ∀ x ∈ g, p x = true) (hc : p c = false) (w : JStr) :
    (g ++ c :: w).dropWhile p = c :: w := by
  induction g with
  | nil =>
    rw [List.nil_append]
    exact dropWhile_cons_of_false hc w
  | cons y ys ih =>
    rw [List.cons_append, List.dropWhile_cons_of_pos (hg y (by simp))]
    exact ih (fun x hx => hg x (by simp [hx]))

theorem sepAfterGroup_trimEnd : ∀ (n : Nat) (l : JStr), l.length ≤ n →
    ∀ (f₁ f₂ : Nat), l.length < f₁ → (jsTrimEnd l).length < f₂ →
    sepAfterGroup f₁ l = true → sepAfterGroup f₂ (jsTrimEnd l) = true := by
  intro n
  induction n with
  | zero =>
    intro l hl f₁ f₂ h1 h2 h
    have : l = [] := List.length_eq_zero.mp (Nat.le_zero.mp hl)
    subst this
    rw [sepAfterGroup_nil] at h; cases h
  | succ n ih =>
    intro l hl f₁ f₂ h1 h2 h
    obtain ⟨rest, rfl⟩ := sepAfterGroup_head h
    obtain ⟨f₁', rfl⟩ : ∃ k, f₁ = k + 1 := by
      cases f₁ with
      | zero => omega
      | succ k => exact ⟨k, rfl⟩
    rw [sepAfterGroup_cons, if_pos rfl, Bool.or_eq_true] at h
    have htE : jsTrimEnd ('|' :: rest) = '|' :: jsTrimEnd rest :=
      jsTrimEnd_cons_not_ws isJsWs_pipe rest
    rw [htE] at h2 ⊢
    obtain ⟨f₂', rfl⟩ : ∃ k, f₂ = k + 1 := by
      cases f₂ with
      | zero => omega
      | succ k => exact ⟨k, rfl⟩
    rw [sepAfterGroup_cons, if_pos rfl, Bool.or_eq_true]
    rcases h with hall | hgrp
    · -- final pipe: rest is all whitespace, so the trimmed rest is empty
      left
      rw [List.all_eq_true] at hall
      rw [jsTrimEnd_of_all_ws (fun x hx => hall x hx)]
      rfl
    · -- another group follows
      right
      rw [Bool.and_eq_true] at hgrp
      obtain ⟨hg, hrec⟩ := hgrp
      obtain ⟨r₂, hr⟩ := sepAfterGroup_head hrec
      have hgall : ∀ x ∈ rest.takeWhile isSepCl, isSepCl x = true :=
        fun x hx => List.mem_takeWhile_imp hx
      have hrest : rest = rest.takeWhile isSepCl ++ ('|' :: r₂) := by
        rw [← hr]; exact (List.takeWhile_append_dropWhile _ _).symm
      have htErest : jsTrimEnd rest = rest.takeWhile isSepCl ++ jsTrimEnd ('|' :: r₂) := by
        conv_lhs => rw [hrest]
        exact jsTrimEnd_append_of_not_all (by
          rw [jsTrimEnd_cons_not_ws isJsWs_pipe]
          simp)
      have htEr : jsTrimEnd ('|' :: r₂) = '|' :: jsTrimEnd r₂ :=
        jsTrimEnd_cons_not_ws isJsWs_pipe r₂
      rw [htErest, htEr]
      rw [Bool.and_eq_true]
      constructor
      · rw [takeWhile_append_cons_neg hgall isSepCl_pipe]
        exact hg
      · rw [dropWhile_append_cons_neg hgall isSepCl_pipe]
        rw [← htEr]
        -- recursive step on the dropped part
        have hlr : ('|' :: r₂).length ≤ n := by
          have h5 : rest.length = (rest.takeWhile isSepCl).length + ('|' :: r₂).length := by
            conv_lhs => rw [hrest]
            rw [List.length_append]
          have h6 : ¬(rest.takeWhile isSepCl).isEmpty = true := by simpa using hg
          have h7 : 1 ≤ (rest.takeWhile isSepCl).length := by
            rcases hq : rest.takeWhile isSepCl with _ | ⟨a, b⟩
            · rw [hq] at h6; simp at h6
            · simp
          simp only [List.length_cons] at hl
          omega
        have hf1 : ('|' :: r₂).length < f₁' := by
          have hlen : ('|' :: r₂).length ≤ (rest.dropWhile isSepCl).length := by rw [hr]
          have hlen2 : (rest.dropWhile isSepCl).length ≤ rest.length :=
            (List.dropWhile_suffix _).length_le
          simp only [List.length_cons] at h1
          omega
        have hf2 : (jsTrimEnd ('|' :: r₂)).length < f₂' := by
          have e1 : (jsTrimEnd rest).length =
              (rest.takeWhile isSepCl).length + (jsTrimEnd ('|' :: r₂)).length := by
            rw [htErest, List.length_append]
          have e2 : (jsTrimEnd ('|' :: r₂)).length = (jsTrimEnd r₂).length + 1 := by
            rw [htEr]; simp
          simp only [List.length_cons] at h2
          omega
        have hrec2 : sepAfterGroup f₁' ('|' :: r₂) = true := by rw [← hr]; exact hrec
        exact ih ('|' :: r₂) hlr f₁' f₂' hf1 hf2 hrec2

theorem sepMatch_jsTrim {l : JStr} (h : sepMatch l = true) : sepMatch (jsTrim l) = true := by
  rcases l with _ | ⟨c, rest⟩
  · cases h
  · rw [sepMatch_cons] at h
    by_cases hc : c = '|'
    · subst hc
      rw [if_pos rfl, Bool.and_eq_true] at h
      obtain ⟨hg, hrec⟩ := h
      obtain ⟨r₂, hr⟩ := sepAfterGroup_head hrec
      have hgall : ∀ x ∈ rest.takeWhile isSepCl, isSepCl x = true :=
        fun x hx => List.mem_takeWhile_imp hx
      have hrest : rest = rest.takeWhile isSepCl ++ ('|' :: r₂) := by
        rw [← hr]; exact (List.takeWhile_append_dropWhile _ _).symm
      have hT : jsTrim ('|' :: rest) = '|' :: jsTrimEnd rest :=
        jsTrim_cons_eq_trimEnd isJsWs_pipe
      rw [hT]
      have htErest : jsTrimEnd rest = rest.takeWhile isSepCl ++ jsTrimEnd ('|' :: r₂) := by
        conv_lhs => rw [hrest]
        exact jsTrimEnd_append_of_not_all (by
          rw [jsTrimEnd_cons_not_ws isJsWs_pipe]
          simp)
      have htEr : jsTrimEnd ('|' :: r₂) = '|' :: jsTrimEnd r₂ :=
        jsTrimEnd_cons_not_ws isJsWs_pipe r₂
      rw [sepMatch_cons, if_pos rfl, Bool.and_eq_true]
      constructor
      · rw [htErest, htEr, takeWhile_append_cons_neg hgall isSepCl_pipe]
        exact hg
      · rw [htErest, htEr, dropWhile_append_cons_neg hgall isSepCl_pipe, ← htEr]
        have hrec2 : sepAfterGroup (('|' :: rest).length + 1) ('|' :: r₂) = true := by
          rw [← hr]; exact hrec
        refine sepAfterGroup_trimEnd ('|' :: r₂).length ('|' :: r₂) le_rfl
          (('|' :: rest).length + 1) _ ?_ ?_ hrec2
        · have hlen : ('|' :: r₂).length ≤ (rest.dropWhile isSepCl).length := by rw [hr]
          have hlen2 : (rest.dropWhile isSepCl).length ≤ rest.length :=
            (List.dropWhile_suffix _).length_le
          simp only [List.length_cons] at hlen ⊢
          omega
        · have e3 : ('|' :: (List.takeWhile isSepCl rest ++ jsTrimEnd ('|' :: r₂))).length =
              1 + (List.takeWhile isSepCl rest).length + (jsTrimEnd ('|' :: r₂)).length := by
            rw [List.length_cons, List.length_append]
            omega
          omega
    · rw [if_neg hc] at h; cases h

/-! ### Row-parsing lemmas -/

theorem contains_eq_false_iff (c : Char) (l : JStr) : (l.contains c) = false ↔ c ∉ l := by
  rw [← Bool.not_eq_true]
  exact not_congr List.elem_iff

theorem findSepIdxGo_ge : ∀ (lines : List JStr) (i j : Nat), findSepIdxGo i lines = some j → i ≤ j := by
  intro lines
  induction lines with
  | nil => intro i j h; simp [findSepIdxGo] at h
  | cons l rest ih =>
    intro i j h
    simp only [findSepIdxGo] at h
    by_cases hl : sepMatch l = true
    · rw [if_pos hl] at h
      injection h with h
      omega
    · rw [if_neg hl] at h
      have := ih (i + 1) j h
      omega

theorem findSepIdx_cons₂_pos {a b : JStr} {r : List JStr} (hb : sepMatch b = true) :
    findSepIdx (a :: b :: r) = some 1 := by
  show findSepIdxGo 1 (b :: r) = some 1
  simp [findSepIdxGo, hb]

theorem findSepIdx_cons₂_neg {a b : JStr} {r : List JStr} (hb : sepMatch b = false) :
    findSepIdx (a :: b :: r) ≠ some 1 := by
  show findSepIdxGo 1 (b :: r) ≠ some 1
  simp only [findSepIdxGo, hb, if_neg]
  rw [if_neg (by simp [hb])]
  intro h
  have := findSepIdxGo_ge r 2 1 h
  omega

theorem parseRow_no_pipe (line : JStr) : ∀ cell ∈ parseRow line, '|' ∉ cell := by
  intro cell hc
  unfold parseRow at hc
  obtain ⟨p, hp, rfl⟩ := List.mem_map.mp hc
  intro hm
  exact not_mem_of_mem_splitCh p hp (mem_jsTrim_of_mem hm)

theorem parseRow_subset (line : JStr) : ∀ cell ∈ parseRow line, ∀ x ∈ cell, x ∈ line := by
  intro cell hc x hx
  unfold parseRow at hc
  obtain ⟨p, hp, rfl⟩ := List.mem_map.mp hc
  have h1 : x ∈ p := mem_jsTrim_of_mem hx
  have h3 := mem_of_mem_splitCh p hp x h1
  apply mem_jsTrim_of_mem
  revert h3
  by_cases hh : (jsTrim line).head? = some '|'
  · simp only [if_pos hh]
    by_cases hl2 : ((jsTrim line).tail).getLast? = some '|'
    · simp only [if_pos hl2]
      intro h3
      exact List.mem_of_mem_tail ((List.dropLast_sublist _).subset h3)
    · simp only [if_neg hl2]
      intro h3
      exact List.mem_of_mem_tail h3
  · simp only [if_neg hh]
    by_cases hl2 : (jsTrim line).getLast? = some '|'
    · simp only [if_pos hl2]
      intro h3
      exact (List.dropLast_sublist _).subset h3
    · simp only [if_neg hl2]
      intro h3
      exact h3

theorem mem_zipWith_pairs {x : Char} :
    ∀ (hs ds : List JStr) (p : JStr),
      p ∈ List.zipWith (fun h c => h ++ ((": ").toList) ++ c) hs ds → x ∈ p →
      x ∈ ((": ").toList) ∨ (∃ h ∈ hs, x ∈ h) ∨ (∃ d ∈ ds, x ∈ d) := by
  intro hs
  induction hs with
  | nil => intro ds p hp; simp at hp
  | cons h hs ih =>
    intro ds p hp hx
    rcases ds with _ | ⟨d, ds'⟩
    · simp at hp
    · rcases List.mem_cons.mp hp with h1 | h1
      · subst h1
        rcases List.mem_append.mp hx with h2 | h2
        · rcases List.mem_append.mp h2 with h3 | h3
          · exact Or.inr (Or.inl ⟨h, by simp, h3⟩)
          · exact Or.inl h3
        · exact Or.inr (Or.inr ⟨d, by simp, h2⟩)
      · rcases ih ds' p h1 hx with h2 | h2 | h2
        · exact Or.inl h2
        · obtain ⟨g, hg, hxg⟩ := h2
          exact Or.inr (Or.inl ⟨g, List.mem_cons.mpr (Or.inr hg), hxg⟩)
        · obtain ⟨g, hg, hxg⟩ := h2
          exact Or.inr (Or.inr ⟨g, List.mem_cons.mpr (Or.inr hg), hxg⟩)

theorem mem_display {x : Char} {cells : List JStr} {d : JStr}
    (hd : d ∈ cells.map (fun c => if c = [] then (("—").toList) else c)) (hx : x ∈ d) :
    x ∈ (("—").toList) ∨ ∃ c ∈ cells, x ∈ c := by
  obtain ⟨c, hc, rfl⟩ := List.mem_map.mp hd
  revert hx
  split
  · intro hx; exact Or.inl hx
  · intro hx; exact Or.inr ⟨c, hc, hx⟩

theorem mem_bulletOf {x : Char} {headers : List JStr} {row : JStr}
    (hx : x ∈ bulletOf headers row) :
    x ∈ (("• ").toList) ∨ x ∈ ((" · ").toList) ∨ x ∈ ((": ").toList) ∨ x ∈ (("—").toList) ∨
      (∃ h ∈ headers, x ∈ h) ∨ (∃ cell ∈ parseRow row, x ∈ cell) := by
  unfold bulletOf at hx
  by_cases hlen : headers.length =
      ((parseRow row).map (fun c => if c = [] then (("—").toList) else c)).length
  · rw [if_pos hlen] at hx
    rcases List.mem_append.mp hx with h1 | h1
    · exact Or.inl h1
    · rcases mem_joinSep h1 with h2 | ⟨p, hp, hxp⟩
      · exact Or.inr (Or.inl h2)
      · rcases mem_zipWith_pairs headers _ p hp hxp with h3 | h3 | h3
        · exact Or.inr (Or.inr (Or.inl h3))
        · exact Or.inr (Or.inr (Or.inr (Or.inr (Or.inl h3))))
        · obtain ⟨d, hd, hxd⟩ := h3
          rcases mem_display hd hxd with h4 | ⟨c, hc, hxc⟩
          · exact Or.inr (Or.inr (Or.inr (Or.inl h4)))
          · exact Or.inr (Or.inr (Or.inr (Or.inr (Or.inr ⟨c, hc, hxc⟩))))
  · rw [if_neg hlen] at hx
    rcases List.mem_append.mp hx with h1 | h1
    · exact Or.inl h1
    · rcases mem_joinSep h1 with h2 | ⟨d, hd, hxd⟩
      · exact Or.inr (Or.inl h2)
      · rcases mem_display hd hxd with h4 | ⟨c, hc, hxc⟩
        · exact Or.inr (Or.inr (Or.inr (Or.inl h4)))
        · exact Or.inr (Or.inr (Or.inr (Or.inr (Or.inr ⟨c, hc, hxc⟩))))

theorem bulletOf_prefix (headers : List JStr) (row : JStr) :
    (("• ").toList).isPrefixOf (bulletOf headers row) = true := by
  simp only [bulletOf]
  split <;> (rw [List.isPrefixOf_iff_prefix]; exact ⟨_, rfl⟩)

theorem dataLines_map (L : List JStr) :
    ((L.map jsTrim).drop 2).filter (fun l => l.contains '|') =
      ((L.drop 2).filter (fun l => l.contains '|')).map jsTrim := by
  rw [← List.map_drop]
  rw [List.filter_map]
  congr 1
  apply List.filter_congr
  intro x _
  show (jsTrim x).contains '|' = x.contains '|'
  exact contains_jsTrim_eq isJsWs_pipe x

theorem tableToBullets_of_cond {block : JStr}
    (h3 : 3 ≤ (splitCh '\n' block).length)
    (hfirst : (((splitCh '\n' block).map jsTrim).headD []).contains '|' = true)
    (hsep : sepMatch (((splitCh '\n' block).map jsTrim).getD 1 []) = true)
    (hdata : (((splitCh '\n' block).map jsTrim).drop 2).filter (fun l => l.contains '|') ≠ []) :
    tableToBullets block =
      joinSep ['\n'] (((((splitCh '\n' block).map jsTrim).drop 2).filter
        (fun l => l.contains '|')).map
          (bulletOf (parseRow (((splitCh '\n' block).map jsTrim).headD [])))) := by
  rcases hL : splitCh '\n' block with _ | ⟨a, t⟩
  · rw [hL] at h3; simp at h3
  rcases t with _ | ⟨b, r⟩
  · rw [hL] at h3; simp at h3
  simp only [tableToBullets]
  rw [hL] at h3 hfirst hsep hdata ⊢
  simp only [List.map_cons, List.headD_cons, List.getD_cons_succ, List.getD_cons_zero,
    List.drop_succ_cons, List.drop_zero] at hfirst hsep hdata ⊢
  simp only [List.length_cons] at h3
  rw [if_neg (by simp only [List.length_map, List.length_cons]; omega)]
  rw [if_neg (by rw [hfirst]; decide)]
  rw [findSepIdx_cons₂_pos hsep]
  simp only [Option.elim]
  rw [if_neg (by
    intro hlen
    exact hdata (List.length_eq_zero.mp hlen))]
  rfl

theorem C4_cond_path (block : JStr)
    (hC : 3 ≤ (splitCh '\n' (jsTrim block)).length ∧
      ((splitCh '\n' (jsTrim block)).headD []).contains '|' = true ∧
      sepMatch ((splitCh '\n' (jsTrim block)).getD 1 []) = true ∧
      ((splitCh '\n' (jsTrim block)).drop 2).filter (fun l => l.contains '|') ≠ []) :
    processBlock block = tableToBullets (jsTrim block) := by
  obtain ⟨h3, hfirst, hsep, hdata⟩ := hC
  have htrim_ne : jsTrim block ≠ [] := by
    intro h
    rw [h] at h3
    simp [splitCh] at h3
  simp only [processBlock]
  rw [if_neg htrim_ne]
  rw [if_neg (by omega)]
  rw [if_neg (by rw [hfirst]; decide)]
  have hfind : findSepIdx (splitCh '\n' (jsTrim block)) = some 1 := by
    rcases hL : splitCh '\n' (jsTrim block) with _ | ⟨a, t⟩
    · rw [hL] at h3; simp at h3
    rcases t with _ | ⟨b, r⟩
    · rw [hL] at h3; simp at h3
    rw [hL] at hsep
    simp only [List.getD_cons_succ, List.getD_cons_zero] at hsep
    exact findSepIdx_cons₂_pos hsep
  rw [if_neg (by simp [hfind])]
  rw [if_neg (by
    intro hlen
    exact hdata (List.length_eq_zero.mp hlen))]

theorem C4_not_cond_path (block : JStr)
    (hC : ¬(3 ≤ (splitCh '\n' (jsTrim block)).length ∧
      ((splitCh '\n' (jsTrim block)).headD []).contains '|' = true ∧
      sepMatch ((splitCh '\n' (jsTrim block)).getD 1 []) = true ∧
      ((splitCh '\n' (jsTrim block)).drop 2).filter (fun l => l.contains '|') ≠ [])) :
    processBlock block = jsTrim block := by
  simp only [processBlock]
  by_cases h0 : jsTrim block = []
  · rw [if_pos h0]; exact h0.symm
  rw [if_neg h0]
  by_cases h1 : (splitCh '\n' (jsTrim block)).length < 3
  · rw [if_pos h1]
  rw [if_neg h1]
  by_cases h2 : ((splitCh '\n' (jsTrim block)).headD []).contains '|' = true
  · rw [if_neg (by rw [h2]; decide)]
    by_cases h3 : findSepIdx (splitCh '\n' (jsTrim block)) = some 1
    · rw [if_neg (by simp [h3])]
      by_cases h4 : (((splitCh '\n' (jsTrim block)).drop 2).filter
          (fun l => l.contains '|')).length = 0
      · rw [if_pos h4]
      · -- all conditions hold, contradicting hC
        exfalso
        apply hC
        refine ⟨by omega, h2, ?_, fun hnil => h4 (by rw [hnil]; rfl)⟩
        rcases hL : splitCh '\n' (jsTrim block) with _ | ⟨a, t⟩
        · rw [hL] at h1; simp at h1
        rcases t with _ | ⟨b, r⟩
        · rw [hL] at h1; simp at h1
        rw [hL] at h3
        simp only [List.getD_cons_succ, List.getD_cons_zero]
        by_cases hb : sepMatch b = true
        · exact hb
        · exact absurd h3 (findSepIdx_cons₂_neg (Bool.eq_false_iff.mpr hb))
    · rw [if_pos (by simp [h3])]
  · have h2f : ((splitCh '\n' (jsTrim block)).headD []).contains '|' = false := by
      cases hX : ((splitCh '\n' (jsTrim block)).headD []).contains '|'
      · rfl
      · exact absurd hX h2
    rw [if_pos (by rw [h2f]; rfl)]

/-- C4 (counterexample): a paragraph with leading whitespace that is not a
table is returned trimmed, not unchanged. -/
theorem C4_reject_trims_cex :
    ¬(3 ≤ (splitCh '\n' (jsTrim ((" x").toList))).length ∧
      ((splitCh '\n' (jsTrim ((" x").toList))).headD []).contains '|' = true ∧
      sepMatch ((splitCh '\n' (jsTrim ((" x").toList))).getD 1 []) = true ∧
      ((splitCh '\n' (jsTrim ((" x").toList))).drop 2).filter (fun l => l.contains '|') ≠ []) ∧
    processBlock ((" x").toList) ≠ ((" x").toList) := by
  refine ⟨by decide, by decide⟩

/-- C4 (amended): the per-paragraph table rewriter returns the paragraph
whole-trimmed but otherwise unchanged unless the trimmed paragraph has at
least three lines, the first line contains a pipe, the line at index 1
matches the strict separator pattern (no searching beyond index 1), and a
later line contains a pipe; when all conditions hold the output contains no
pipe character and consists of exactly one bullet line (prefixed with a
bullet glyph) per pipe-containing data row. -/
theorem C4_table_rewriter (block : JStr) :
    (¬(3 ≤ (splitCh '\n' (jsTrim block)).length ∧
        ((splitCh '\n' (jsTrim block)).headD []).contains '|' = true ∧
        sepMatch ((splitCh '\n' (jsTrim block)).getD 1 []) = true ∧
        ((splitCh '\n' (jsTrim block)).drop 2).filter (fun l => l.contains '|') ≠ []) →
      processBlock block = jsTrim block) ∧
    ((3 ≤ (splitCh '\n' (jsTrim block)).length ∧
        ((splitCh '\n' (jsTrim block)).headD []).contains '|' = true ∧
        sepMatch ((splitCh '\n' (jsTrim block)).getD 1 []) = true ∧
        ((splitCh '\n' (jsTrim block)).drop 2).filter (fun l => l.contains '|') ≠ []) →
      (processBlock block).contains '|' = false ∧
      (splitCh '\n' (processBlock block)).length =
        (((splitCh '\n' (jsTrim block)).drop 2).filter (fun l => l.contains '|')).length ∧
      ∀ bl ∈ splitCh '\n' (processBlock block), (("• ").toList).isPrefixOf bl = true) := by
  constructor
  · exact C4_not_cond_path block
  · intro hC
    obtain ⟨h3, hfirst, hsep, hdata⟩ := hC
    rcases hL : splitCh '\n' (jsTrim block) with _ | ⟨a, t⟩
    · rw [hL] at h3; simp at h3
    rcases t with _ | ⟨b, r⟩
    · rw [hL] at h3; simp at h3
    -- line membership facts
    have ha_mem : a ∈ splitCh '\n' (jsTrim block) := by rw [hL]; simp
    have hb_mem : b ∈ splitCh '\n' (jsTrim block) := by rw [hL]; simp
    -- the trimmed-line hypotheses of the bullets lemma
    have hfirst' : (((splitCh '\n' (jsTrim block)).map jsTrim).headD []).contains '|' = true := by
      rw [hL]
      simp only [List.map_cons, List.headD_cons]
      rw [contains_jsTrim_eq isJsWs_pipe]
      rw [hL] at hfirst
      simpa using hfirst
    have hsep' : sepMatch (((splitCh '\n' (jsTrim block)).map jsTrim).getD 1 []) = true := by
      rw [hL]
      simp only [List.map_cons, List.getD_cons_succ, List.getD_cons_zero]
      apply sepMatch_jsTrim
      rw [hL] at hsep
      simpa using hsep
    have hdata' : (((splitCh '\n' (jsTrim block)).map jsTrim).drop 2).filter
        (fun l => l.contains '|') ≠ [] := by
      rw [dataLines_map]
      intro hmap
      exact hdata (List.map_eq_nil_iff.mp hmap)
    have heq := C4_cond_path block ⟨h3, hfirst, hsep, hdata⟩
    have htb := @tableToBullets_of_cond (jsTrim block) h3 hfirst' hsep' hdata'
    rw [heq, htb]
    -- abbreviations
    have hnosep_line : ∀ l ∈ splitCh '\n' (jsTrim block), '\n' ∉ l :=
      fun l hl => not_mem_of_mem_splitCh l hl
    have hhead_eq : (((splitCh '\n' (jsTrim block)).map jsTrim).headD []) = jsTrim a := by
      rw [hL]; simp
    have hdataRows : (((splitCh '\n' (jsTrim block)).map jsTrim).drop 2).filter
        (fun l => l.contains '|') =
        (((splitCh '\n' (jsTrim block)).drop 2).filter (fun l => l.contains '|')).map jsTrim :=
      dataLines_map _
    -- no newline inside any bullet line
    have hnl_bullet : ∀ p ∈ ((((splitCh '\n' (jsTrim block)).map jsTrim).drop 2).filter
        (fun l => l.contains '|')).map
          (bulletOf (parseRow (((splitCh '\n' (jsTrim block)).map jsTrim).headD []))),
        '\n' ∉ p := by
      intro p hp hmem
      obtain ⟨row, hrow, rfl⟩ := List.mem_map.mp hp
      rcases mem_bulletOf hmem with h | h | h | h | ⟨hh, hhm, hhx⟩ | ⟨cell, hcm, hcx⟩
      · simp at h
      · simp at h
      · simp at h
      · simp at h
      · -- a header cell contains a newline
        rw [hhead_eq] at hhm
        have h1 : ('\n' : Char) ∈ jsTrim a := parseRow_subset (jsTrim a) hh hhm '\n' hhx
        exact hnosep_line a ha_mem (mem_jsTrim_of_mem h1)
      · -- a data cell contains a newline
        rw [hdataRows] at hrow
        obtain ⟨rr, hrr, rfl⟩ := List.mem_map.mp hrow
        have h1 : ('\n' : Char) ∈ jsTrim rr := parseRow_subset (jsTrim rr) cell hcm '\n' hcx
        have h2 : rr ∈ (splitCh '\n' (jsTrim block)).drop 2 := (List.mem_filter.mp hrr).1
        exact hnosep_line rr (List.drop_subset 2 _ h2) (mem_jsTrim_of_mem h1)
    have hparts_ne : ((((splitCh '\n' (jsTrim block)).map jsTrim).drop 2).filter
        (fun l => l.contains '|')).map
          (bulletOf (parseRow (((splitCh '\n' (jsTrim block)).map jsTrim).headD []))) ≠ [] := by
      intro hmap
      exact hdata' (List.map_eq_nil_iff.mp hmap)
    have hsplit := @splitCh_joinSep '\n' _ hparts_ne hnl_bullet
    refine ⟨?_, ?_, ?_⟩
    · -- no pipe in the output
      rw [contains_eq_false_iff]
      intro hmem
      rcases mem_joinSep hmem with h | ⟨p, hp, hxp⟩
      · simp at h
      · obtain ⟨row, hrow, rfl⟩ := List.mem_map.mp hp
        rcases mem_bulletOf hxp with h | h | h | h | ⟨hh, hhm, hhx⟩ | ⟨cell, hcm, hcx⟩
        · simp at h
        · simp at h
        · simp at h
        · simp at h
        · exact parseRow_no_pipe _ hh hhm hhx
        · exact parseRow_no_pipe _ cell hcm hcx
    · -- exactly one bullet line per pipe-containing data row
      rw [hsplit, List.length_map, hdataRows, List.length_map, hL]
    · -- every output line is a bullet line
      intro bl hbl
      rw [hsplit] at hbl
      obtain ⟨row, _, rfl⟩ := List.mem_map.mp hbl
      exact bulletOf_prefix _ row

/-- C4 witness: the rewriter contract at a concrete well-formed table. -/
theorem C4_table_rewriter_witness :
    (processBlock (("| A | B |\n|---|---|\n| 1 | 2 |").toList)).contains '|' = false ∧
    (splitCh '\n' (processBlock (("| A | B |\n|---|---|\n| 1 | 2 |").toList))).length =
      (((splitCh '\n' (jsTrim (("| A | B |\n|---|---|\n| 1 | 2 |").toList))).drop 2).filter
        (fun l => l.contains '|')).length ∧
    ∀ bl ∈ splitCh '\n' (processBlock (("| A | B |\n|---|---|\n| 1 | 2 |").toList)),
      (("• ").toList).isPrefixOf bl = true :=
  (C4_table_rewriter (("| A | B |\n|---|---|\n| 1 | 2 |").toList)).2 (by decide)
